import Mathlib

/-!
Verification development for the character-level lemmatizer
(`flair/models/lemmatizer_model.py`).

The network itself (GRU cells, attention, softmax) computes with real
numbers; we embed the decoding algorithms shallowly over an abstract
decoder step function that returns, for a hidden state and an input
character index, a new hidden state together with the vector of
log-probabilities of the next character (the code computes
`softmax` followed by `log`; since `log` is strictly monotone on the
positive reals, ranking by probability and ranking by log-probability
agree, so the embedding works with log-probabilities in `ℚ` directly).

Two score types are used.

`Score := WithBot ℚ` models the per-row selection and the scores of the
regime in which no masked symbol is ever selected.  The masking of the
padding / start symbols sets their *probability* to `-1` (lines 384-385,
434-435, 596-597), a value strictly below every softmax output, and the
per-row `topk` runs over the probabilities, *before* `torch.log` is
taken — so for the per-row selection (which characters, in which order)
a masked entry ranks last, which `⊥` reproduces.  As long as
`beam_size ≤ n - 2` the `beam_size` selected entries of a row are all
unmasked, every selected log-probability is an ordinary number, and
`Score` with `⊥ = -inf` (`log_probabilities[...] = -inf` for finalized
candidates, line 461) is exact.

When `beam_size > n - 2` a masked entry *is* selected, and the code then
takes `torch.log(-1) = NaN` as its log-probability.  `NaN` is absorbing
under addition (also against `-inf`) and `torch.topk` ranks it above
every number.  `TScore := WithTop Score` (defined further down) models
this: `⊤` is `NaN`, `↑⊥` is `-inf`, and the `WithTop (WithBot ℚ)`
addition (`⊤` absorbing; `↑⊥` absorbing among non-`⊤` values) agrees
with IEEE arithmetic on these values.  The batched decoding loop is
embedded a second time over `TScore`; the two embeddings coincide
whenever no masked symbol is selected, and the `TScore` one is the
reference for the claims whose content reaches the
`beam_size > n - 2` regime.

`torch.topk` returns the `k` largest entries in descending order; on
ties it is modelled (like Python's stable `sorted(..., reverse=True)`)
as keeping the entry with the smaller index first.
-/

/-- Scores / log-probabilities with `-inf` (`⊥`). -/
abbrev Score := WithBot ℚ

/-- Division of a score by a (positive) natural length, `-inf / n = -inf`. -/
def Score.divNat (s : Score) (m : ℕ) : Score := s.map (fun q => q / (m : ℚ))

/-- Descending comparison by a key into a linear order; `descBy f a b`
means `a` may come before `b` in a descending sort.  Used with Mathlib's
stable `insertionSort`, this reproduces Python's
`sorted(..., reverse=True)` and the tie behaviour assumed of
`torch.topk` (earlier element first on equal keys). -/
def descBy {α β : Type} [LinearOrder β] (f : α → β) (a b : α) : Prop := f b ≤ f a

instance {α β : Type} [LinearOrder β] (f : α → β) : DecidableRel (descBy f) :=
  fun a b => inferInstanceAs (Decidable (f b ≤ f a))

instance {α β : Type} [LinearOrder β] (f : α → β) : IsTotal α (descBy f) :=
  ⟨fun a b => le_total (f b) (f a)⟩

instance {α β : Type} [LinearOrder β] (f : α → β) : IsTrans α (descBy f) :=
  ⟨fun _ _ _ h1 h2 => le_trans h2 h1⟩

/-- `torch.topk(v, k)`: the `k` largest entries of `v` as
`(index, value)` pairs, in descending value order, ties broken towards
the smaller index. -/
def topk {β : Type} [LinearOrder β] (l : List β) (k : ℕ) : List (ℕ × β) :=
  ((l.enum).insertionSort (descBy Prod.snd)).take k

theorem topk_mem {β : Type} [LinearOrder β] {l : List β} {k : ℕ} {p : ℕ × β}
    (h : p ∈ topk l k) : p ∈ l.enum :=
  (l.enum.perm_insertionSort (descBy Prod.snd)).subset
    ((List.take_sublist _ _).subset h)

theorem topk_mem_getElem? {β : Type} [LinearOrder β] {l : List β} {k : ℕ}
    {p : ℕ × β} (h : p ∈ topk l k) : l[p.1]? = some p.2 :=
  List.mem_enum_iff_getElem?.mp (topk_mem h)

theorem topk_length {β : Type} [LinearOrder β] (l : List β) (k : ℕ) :
    (topk l k).length = min k l.length := by
  simp [topk, List.length_take, List.length_insertionSort]

theorem topk_sorted {β : Type} [LinearOrder β] (l : List β) (k : ℕ) :
    (topk l k).Sorted (descBy Prod.snd) :=
  (List.sorted_insertionSort _ _).sublist (List.take_sublist _ _)

/-- The entries selected by `topk` dominate the entries it rejects. -/
theorem topk_dominates {β : Type} [LinearOrder β] {l : List β} {k : ℕ}
    {p q : ℕ × β}
    (hp : p ∈ topk l k)
    (hq : q ∈ (l.enum.insertionSort (descBy Prod.snd)).drop k) :
    q.2 ≤ p.2 :=
  (List.sorted_insertionSort (descBy Prod.snd) l.enum).rel_of_mem_take_of_mem_drop hp hq

/-- The sorted list decomposes into the selected part and the rest. -/
theorem topk_perm_decomp {β : Type} [LinearOrder β] (l : List β) (k : ℕ) :
    l.enum.Perm (topk l k ++ (l.enum.insertionSort (descBy Prod.snd)).drop k) := by
  have h := l.enum.perm_insertionSort (descBy Prod.snd)
  rw [topk, List.take_append_drop]
  exact h.symm

/-- The indices produced by `topk` are pairwise distinct. -/
theorem topk_nodup_fst {β : Type} [LinearOrder β] (l : List β) (k : ℕ) :
    ((topk l k).map Prod.fst).Nodup := by
  have hnd : (l.enum.map Prod.fst).Nodup := List.nodup_enum_map_fst l
  have hperm : List.Perm ((l.enum.insertionSort (descBy Prod.snd)).map Prod.fst)
      (l.enum.map Prod.fst) :=
    (l.enum.perm_insertionSort (descBy Prod.snd)).map Prod.fst
  have hnd2 : ((l.enum.insertionSort (descBy Prod.snd)).map Prod.fst).Nodup :=
    hperm.nodup_iff.mpr hnd
  exact hnd2.sublist ((List.take_sublist _ _).map Prod.fst)

theorem countP_lt_length {α : Type} {p : α → Bool} {l : List α} {a : α}
    (ha : a ∈ l) (hpa : ¬ p a) : l.countP p < l.length := by
  induction l with
  | nil => cases ha
  | cons b l ih =>
    rw [List.countP_cons, List.length_cons]
    rcases List.mem_cons.mp ha with h | h
    · subst h
      rw [if_neg (by simpa using hpa)]
      have := List.countP_le_length (p := p) (l := l)
      omega
    · have h1 := ih h
      have h2 : (if p b = true then 1 else 0) ≤ 1 := by split <;> omega
      omega

/-- If at least `k` entries of `l` are finite (`≠ ⊥`), every entry
selected by `topk l k` is finite. -/
theorem topk_ne_bot {β : Type} [LinearOrder β] [OrderBot β] [DecidableEq β]
    {l : List β} {k : ℕ}
    (hc : k ≤ l.countP (fun v => v ≠ ⊥)) {p : ℕ × β}
    (hp : p ∈ topk l k) : p.2 ≠ ⊥ := by
  intro hbot
  set r := descBy (α := ℕ × β) Prod.snd with hr
  set srt := l.enum.insertionSort r with hsrt
  -- every rejected entry is `⊥` as well
  have hdrop : ∀ q ∈ srt.drop k, q.2 = ⊥ := by
    intro q hq
    have := topk_dominates (l := l) (k := k) hp hq
    rw [hbot] at this
    exact le_bot_iff.mp this
  -- count of finite entries in `l` equals that of `srt`
  have hperm : List.Perm srt l.enum := l.enum.perm_insertionSort r
  have hcount : l.countP (fun v => v ≠ ⊥) = srt.countP (fun q => q.2 ≠ ⊥) := by
    have h1 : srt.countP (fun q => q.2 ≠ ⊥) = l.enum.countP (fun q => q.2 ≠ ⊥) :=
      hperm.countP_eq _
    have h2 : l.enum.countP (fun q => q.2 ≠ ⊥) = l.countP (fun v => v ≠ ⊥) := by
      have : l.enum.countP (fun q => q.2 ≠ ⊥) = (l.enum.map Prod.snd).countP (fun v => v ≠ ⊥) := by
        rw [List.countP_map]; rfl
      rw [this, List.enum_map_snd]
    omega
  -- split the count over take/drop
  have hsplit : srt.countP (fun q => q.2 ≠ ⊥) =
      (srt.take k).countP (fun q => q.2 ≠ ⊥) + (srt.drop k).countP (fun q => q.2 ≠ ⊥) := by
    conv_lhs => rw [← List.take_append_drop k srt]
    rw [List.countP_append]
  have hdrop0 : (srt.drop k).countP (fun q => q.2 ≠ ⊥) = 0 := by
    rw [List.countP_eq_zero]
    intro q hq
    simp [hdrop q hq]
  have htake : (srt.take k).countP (fun q => q.2 ≠ ⊥) < k := by
    have hplt : (srt.take k).countP (fun q => q.2 ≠ ⊥) < (srt.take k).length := by
      refine countP_lt_length (a := p) hp ?_
      simp [hbot]
    have : (srt.take k).length ≤ k := by
      simp [List.length_take]
    omega
  omega

/-! ## The abstract decoder -/

/-- The special indices of the character dictionary
(`dummy_index = add_item('<>')`, `start_index = add_item('<S>')`,
`end_index = add_item('<E>')`) together with the alphabet size
`n = len(char_dictionary)`. -/
structure Alph where
  n : ℕ
  dummyIndex : ℕ
  startIndex : ℕ
  endIndex : ℕ

/-- One word's view of the decoder.  `step hid c` performs one `decode`
invocation (embed character `c`, one decoder-RNN step from state `hid`,
optional attention over this word's encoder outputs, output projection,
`softmax`, `log`) and returns the new hidden state together with the
log-probability vector over the alphabet; `init` is the initial hidden
state produced by `encode` for this word.  The numeric network is
abstract; the beam-search bookkeeping around it is embedded exactly. -/
structure DecModel (σ : Type) where
  init : σ
  step : σ → ℕ → σ × List ℚ

/-- `out_probs[..., dummy_index] = -1; out_probs[..., start_index] = -1`
(lines 384-385, 434-435, 596-597, 649-650).  The per-row `topk` runs
over the *probabilities*, before `torch.log` is taken, and `-1` lies
strictly below every softmax probability — so for the per-row selection
a masked entry ranks last, which `⊥` reproduces; `topk (maskLP A lp) B`
returns the characters the code selects, in the code's order, for every
beam size.  The *score* the code attaches afterwards is the `log` of the
selected probability: an ordinary number for an unmasked entry, but
`log(-1) = NaN` for a masked one (only selectable when
`beam_size > n - 2`); the `NaN` values are the business of the `TScore`
embedding further down, which reinterprets the selected entries. -/
def maskLP (A : Alph) (lp : List ℚ) : List Score :=
  lp.enum.map (fun p =>
    if p.1 = A.dummyIndex ∨ p.1 = A.startIndex then (⊥ : Score) else (p.2 : Score))

theorem maskLP_length (A : Alph) (lp : List ℚ) :
    (maskLP A lp).length = lp.length := by
  simp [maskLP]

theorem countP_or_count {l : List ℕ} {d s : ℕ} (h : d ≠ s) :
    l.countP (fun i => i = d ∨ i = s) = l.count d + l.count s := by
  induction l with
  | nil => simp
  | cons a l ih =>
    rw [List.countP_cons, List.count_cons, List.count_cons, ih]
    simp only [beq_iff_eq, decide_eq_true_eq]
    split_ifs <;> omega

theorem countP_not_add {α : Type} (p : α → Bool) (l : List α) :
    l.countP (fun a => !(p a)) + l.countP p = l.length := by
  induction l with
  | nil => simp
  | cons a t ih =>
    rw [List.countP_cons, List.countP_cons, List.length_cons]
    rcases hp : p a <;> simp [hp] <;> omega

/-- After masking, exactly `n - 2` entries are finite. -/
theorem maskLP_countP (A : Alph) {lp : List ℚ}
    (hd : A.dummyIndex < lp.length) (hs : A.startIndex < lp.length)
    (hds : A.dummyIndex ≠ A.startIndex) :
    (maskLP A lp).countP (fun v => v ≠ ⊥) = lp.length - 2 := by
  rw [maskLP, List.countP_map]
  have h1 : ((fun v => decide (v ≠ ⊥)) ∘
      (fun p : ℕ × ℚ => if p.1 = A.dummyIndex ∨ p.1 = A.startIndex then (⊥ : Score) else (p.2 : Score)))
      = fun p : ℕ × ℚ => decide (¬(p.1 = A.dummyIndex ∨ p.1 = A.startIndex)) := by
    funext p
    by_cases h : p.1 = A.dummyIndex ∨ p.1 = A.startIndex <;> simp [h]
  rw [h1]
  have h2 : lp.enum.countP (fun p => decide (¬(p.1 = A.dummyIndex ∨ p.1 = A.startIndex)))
      = (lp.enum.map Prod.fst).countP (fun i => decide (¬(i = A.dummyIndex ∨ i = A.startIndex))) := by
    rw [List.countP_map]; rfl
  rw [h2, List.enum_map_fst]
  simp only [decide_not]
  have h3 := countP_not_add
    (fun i => decide (i = A.dummyIndex ∨ i = A.startIndex)) (List.range lp.length)
  have h4 : (List.range lp.length).countP (fun i => i = A.dummyIndex ∨ i = A.startIndex) = 2 := by
    rw [countP_or_count hds]
    have hcd : (List.range lp.length).count A.dummyIndex = 1 :=
      List.count_eq_one_of_mem (List.nodup_range _) (List.mem_range.mpr hd)
    have hcs : (List.range lp.length).count A.startIndex = 1 :=
      List.count_eq_one_of_mem (List.nodup_range _) (List.mem_range.mpr hs)
    omega
  rw [List.length_range] at h3
  omega

/-! ## Non-batched beam search (`predict`, `else` branch, lines 540-718) -/

/-- A live hypothesis of the non-batched mode: the candidate list
`[prediction sequence, hidden state, score, loss]` of the code (the loss
slot is only used with `return_loss` and is modelled separately). -/
structure NBHyp (σ : Type) where
  seq : List ℕ
  hid : σ
  score : Score

instance {σ : Type} [Inhabited σ] : Inhabited (NBHyp σ) := ⟨⟨[], default, ⊥⟩⟩

/-- Non-batched first pass (lines 575-624): feed `<S>`, mask the dummy
and start logits, take the `beam_size` most probable characters; each
becomes a live hypothesis `⟨[c], hidden, log p⟩`.  No end-symbol check is
performed in this first step. -/
def nbFirst {σ : Type} (A : Alph) (M : DecModel σ) (B : ℕ) : List (NBHyp σ) :=
  let r := M.step M.init A.startIndex
  (topk (maskLP A r.2) B).map (fun c => ⟨[c.1], r.1, c.2⟩)

/-- One live hypothesis's expansion (lines 635-667): one decoder step on
its last emitted character, masking, `topk(beam_size)`. -/
def nbRowTop {σ : Type} (A : Alph) (M : DecModel σ) (B : ℕ) (h : NBHyp σ) :
    σ × List (ℕ × Score) :=
  let r := M.step h.hid (h.seq.getLastD 0)
  (r.1, topk (maskLP A r.2) B)

/-- One expansion step over all live hypotheses (lines 631-686), in the
code's generation order: returns `new_sequences` (uncut) and the newly
finalized candidates.  A candidate whose chosen character is `<E>` is
appended to the finalized list with score `(score + log p) / (len(seq) + 1)`
and is not appended to `new_sequences`. -/
def nbStepOnce {σ : Type} (A : Alph) (M : DecModel σ) (B : ℕ) (live : List (NBHyp σ)) :
    List (NBHyp σ) × List (List ℕ × Score) :=
  ((live.map (fun h =>
      ((nbRowTop A M B h).2).filterMap (fun c =>
        if c.1 = A.endIndex then none
        else some (NBHyp.mk (h.seq ++ [c.1]) (nbRowTop A M B h).1 (h.score + c.2))))).flatten,
   (live.map (fun h =>
      ((nbRowTop A M B h).2).filterMap (fun c =>
        if c.1 = A.endIndex then
          some (h.seq, Score.divNat (h.score + c.2) (h.seq.length + 1))
        else none))).flatten)

/-- `sorted(new_sequences, key=score, reverse=True)[:beam_size]`
(lines 692-695): stable descending sort by cumulative score, keep the
best `beam_size`. -/
def topCut {σ : Type} (B : ℕ) (l : List (NBHyp σ)) : List (NBHyp σ) :=
  (l.insertionSort (descBy NBHyp.score)).take B

/-- The `for i in range(1, max_length)` loop (lines 631-695) with its
`break` when `new_sequences` is empty; `k` counts the remaining
iterations; finalized candidates accumulate. -/
def nbLoop {σ : Type} (A : Alph) (M : DecModel σ) (B : ℕ) :
    ℕ → List (NBHyp σ) → List (List ℕ × Score) →
    List (NBHyp σ) × List (List ℕ × Score)
  | 0, live, fins => (live, fins)
  | k+1, live, fins =>
    let s := nbStepOnce A M B live
    if s.1.isEmpty then (live, fins ++ s.2)
    else nbLoop A M B k (topCut B s.1) (fins ++ s.2)

/-- Post-loop fallback (lines 697-702): if no candidate was finalized,
synthesize one from `sequences[0]` with score `score / max_length`. -/
def nbFinalsWithFallback {σ : Type} [Inhabited σ] (maxLen : ℕ)
    (res : List (NBHyp σ) × List (List ℕ × Score)) : List (List ℕ × Score) :=
  if res.2.isEmpty then
    [((res.1.headD default).seq, Score.divNat (res.1.headD default).score maxLen)]
  else res.2

/-- Post-loop extraction (lines 697-716): return the sequence of the
finalized candidate with the highest normalized score (stable descending
sort, first element). -/
def nbExtract {σ : Type} [Inhabited σ] (maxLen : ℕ)
    (res : List (NBHyp σ) × List (List ℕ × Score)) : List ℕ :=
  (((nbFinalsWithFallback maxLen res).insertionSort (descBy Prod.snd)).headD ([], ⊥)).1

/-- The non-batched prediction of one token's lemma (as a character index
sequence) with beam size `B` and decoding cap `maxLen`. -/
def nbPredictToken {σ : Type} [Inhabited σ] (A : Alph) (M : DecModel σ)
    (B maxLen : ℕ) : List ℕ :=
  nbExtract maxLen (nbLoop A M B (maxLen - 1) (nbFirst A M B) [])

/-- Modelled from the spec (§8 "Degenerate beam"): pure greedy decoding —
at every step pick the single highest-probability character (after the
engine's masking of the padding and start logits, §4.5), stop when the
end symbol is picked (it is not emitted) or when `max_length` characters
have been produced. -/
def greedyGo {σ : Type} (A : Alph) (M : DecModel σ) : ℕ → σ → ℕ → List ℕ
  | 0, _, _ => []
  | k+1, hid, inp =>
    let r := M.step hid inp
    let c := (topk (maskLP A r.2) 1).headD (0, ⊥)
    if c.1 = A.endIndex then [] else c.1 :: greedyGo A M k r.1 c.1

/-- Modelled from the spec: greedy decoding of one token, cap `maxLen`. -/
def greedy {σ : Type} (A : Alph) (M : DecModel σ) (maxLen : ℕ) : List ℕ :=
  greedyGo A M maxLen M.init A.startIndex

/-! ## Batched beam search (`predict`, `if self.batching_in_rnn` branch,
lines 353-538).  The flattened tensors of the code (size
`beam_size * number_tokens`) are lists indexed by `r = t * B + j`:
token `t = r / B` (`torch.div(..., rounding_mode='trunc')`), beam slot
`j = r % B`.  The shared decoder network applied to row `r` sees the
hidden state of that row and the encoder outputs of token `t`, which the
abstract per-token model family `Ms : ℕ → DecModel σ` captures. -/

/-- Beam-search state after the first pass / an expansion step:
`leading_indices`, `hidden_states_beam`, `scores`, `sequences`
(all of length `N * B`) and the per-token `final_candidates`. -/
structure BState (σ : Type) where
  leading : List ℕ
  hidden : List σ
  scores : List Score
  seqs : List (List ℕ)
  finals : List (List (List ℕ × Score))

/-- First pass (lines 375-421): feed `<S>` for every token, mask the
dummy and start logits, keep the `beam_size` most probable characters per
token; `scores = log(probabilities)`, all `beam_size` rows of a token
share the token's new hidden state.  No end-symbol check is performed. -/
def bFirst {σ : Type} (A : Alph) (Ms : ℕ → DecModel σ) (N B : ℕ) : BState σ :=
  let per := (List.range N).map (fun t =>
    let r := (Ms t).step (Ms t).init A.startIndex
    (r.1, topk (maskLP A r.2) B))
  { leading := (per.map (fun p => p.2.map Prod.fst)).flatten
    hidden := (per.map (fun p => p.2.map (fun _ => p.1))).flatten
    scores := (per.map (fun p => p.2.map Prod.snd)).flatten
    seqs := (per.map (fun p => p.2.map (fun c => [c.1]))).flatten
    finals := List.replicate N [] }

/-- One decoder invocation on row `r` (lines 425-440): step on the row's
leading character, mask, `topk(beam_size)`; returns the row's new hidden
state and its candidate `(character, log-probability)` pairs. -/
def bRow {σ : Type} [Inhabited σ] (A : Alph) (Ms : ℕ → DecModel σ) (B : ℕ)
    (st : BState σ) (r : ℕ) : σ × List (ℕ × Score) :=
  let res := (Ms (r / B)).step (st.hidden.getD r default) (st.leading.getD r 0)
  (res.1, topk (maskLP A res.2) B)

/-- `log_probabilities[tuple[0], tuple[1]] = -inf` (line 461) for every
candidate whose chosen character is the end symbol. -/
def zapEnd (A : Alph) (tp : List (ℕ × Score)) : List (ℕ × Score) :=
  tp.map (fun c => if c.1 = A.endIndex then (c.1, (⊥ : Score)) else c)

/-- The newly finalized candidates of token `t` in one expansion step
(lines 443-458), in the row-major order of `(index_candidates ==
end_index).nonzero()`: sequence kept as the parent's, score
`(scores[row] + log p) / (len(seq) + 1)`. -/
def bFinalsAdd {σ : Type} [Inhabited σ] (A : Alph) (Ms : ℕ → DecModel σ) (B : ℕ)
    (st : BState σ) (t : ℕ) : List (List ℕ × Score) :=
  ((List.range B).map (fun i =>
    ((bRow A Ms B st (t * B + i)).2).filterMap (fun c =>
      if c.1 = A.endIndex then
        some (st.seqs.getD (t * B + i) [],
          Score.divNat (st.scores.getD (t * B + i) ⊥ + c.2)
            ((st.seqs.getD (t * B + i) []).length + 1))
      else none))).flatten

/-- `hypothesis_scores_per_token`, the `beam_size ** 2` candidate scores
of token `t` (lines 466-471), after the `-inf` assignment to finalized
candidates: flat index `m` denotes parent row `t*B + m / B` and candidate
slot `m % B`; the value is `scores[row] + log_probabilities[row][slot]`.
Over `Score` this is exact as long as no masked symbol was ever selected
(`beam_size ≤ n - 2`); the `TScore` variant `bCandsT` below also covers
the `NaN` values that arise beyond that regime. -/
def bCands {σ : Type} [Inhabited σ] (A : Alph) (Ms : ℕ → DecModel σ) (B : ℕ)
    (st : BState σ) (t : ℕ) : List Score :=
  ((List.range B).map (fun i =>
    (zapEnd A (bRow A Ms B st (t * B + i)).2).map
      (fun c => st.scores.getD (t * B + i) ⊥ + c.2))).flatten

/-- `hypothesis_scores_per_token.topk(beam_size, 1)` (line 474): the
`beam_size` best candidate continuations of token `t`, as
`(flat index, cumulative score)` pairs. -/
def bPicks {σ : Type} [Inhabited σ] (A : Alph) (Ms : ℕ → DecModel σ) (B : ℕ)
    (st : BState σ) (t : ℕ) : List (ℕ × Score) :=
  topk (bCands A Ms B st t) B

/-- One expansion step (lines 423-508): compute every row's candidates,
set finalized candidates aside (`bFinalsAdd`), re-rank per token
(`bPicks`), and rebuild `sequences`, `scores`, `leading_indices` and
`hidden_states_beam` through the `beam_numbers` / `seq_numbers` index
arithmetic (lines 478-501): for a picked flat index `m` of token `t`,
`beam = t*B + m / B` and `seq_number = m % B`. -/
def bStep {σ : Type} [Inhabited σ] (A : Alph) (Ms : ℕ → DecModel σ) (N B : ℕ)
    (st : BState σ) : BState σ :=
  let pickRows := ((List.range N).map (fun t =>
    (bPicks A Ms B st t).map (fun p => (t * B + p.1 / B, p.1 % B, p.2)))).flatten
  { leading := pickRows.map (fun q => ((bRow A Ms B st q.1).2.getD q.2.1 (0, ⊥)).1)
    hidden := pickRows.map (fun q => (bRow A Ms B st q.1).1)
    scores := pickRows.map (fun q => q.2.2)
    seqs := pickRows.map (fun q =>
      st.seqs.getD q.1 [] ++ [((bRow A Ms B st q.1).2.getD q.2.1 (0, ⊥)).1])
    finals := (List.range N).map (fun t => st.finals.getD t [] ++ bFinalsAdd A Ms B st t) }

/-- The `for j in range(1, max_length)` loop (line 423). -/
def bLoop {σ : Type} [Inhabited σ] (A : Alph) (Ms : ℕ → DecModel σ) (N B : ℕ) :
    ℕ → BState σ → BState σ
  | 0, st => st
  | k+1, st => bLoop A Ms N B k (bStep A Ms N B st)

/-- `scores.view(number_tokens, -1).topk(1, 1)` for token `t`
(line 512): the best live row of the token, as
`(beam slot, score)`. -/
def bFallbackTop1 {σ : Type} (B : ℕ) (st : BState σ) (t : ℕ) : ℕ × Score :=
  (topk ((List.range B).map (fun i => st.scores.getD (t * B + i) ⊥)) 1).headD (0, ⊥)

/-- Fallback for token `t` (lines 514-520): if its finalized set is
empty, synthesize one candidate from its best live row with score
`score / max_length`. -/
def bFinalsWithFallback {σ : Type} (B maxLen : ℕ) (st : BState σ) (t : ℕ) :
    List (List ℕ × Score) :=
  let fins := st.finals.getD t []
  if fins.isEmpty then
    [(st.seqs.getD (t * B + (bFallbackTop1 B st t).1) [],
      Score.divNat (bFallbackTop1 B st t).2 maxLen)]
  else fins

def bFinish {σ : Type} [Inhabited σ] (N B maxLen : ℕ) (st : BState σ) : List (List ℕ) :=
  (List.range N).map (fun t =>
    (((bFinalsWithFallback B maxLen st t).insertionSort (descBy Prod.snd)).headD ([], ⊥)).1)

/-- Batched prediction of the lemmas (character index sequences) of `N`
tokens with beam size `B` and decoding cap `maxLen`. -/
def bLemmas {σ : Type} [Inhabited σ] (A : Alph) (Ms : ℕ → DecModel σ)
    (N B maxLen : ℕ) : List (List ℕ) :=
  bFinish N B maxLen (bLoop A Ms N B (maxLen - 1) (bFirst A Ms N B))

/-- `predict`'s execution-mode dispatch for one token: with
`beam_size == 1` the code sets `self.batching_in_rnn = False`
(lines 327-328), so the non-batched path runs regardless of the
configured mode; otherwise `batching_in_rnn` selects the path. -/
def predictDispatch {σ : Type} [Inhabited σ] (batching : Bool) (A : Alph)
    (M : DecModel σ) (B maxLen : ℕ) : List ℕ :=
  if B = 1 then nbPredictToken A M B maxLen
  else if batching then (bLemmas A (fun _ => M) 1 B maxLen).headD []
  else nbPredictToken A M B maxLen

/-! ## `words_to_char_indices` (lines 143-179) -/

/-- `c = int(end_symbol) + int(start_symbol)`: number of inserted
special symbols (line 156). -/
def numSpecial (end_symbol start_symbol : Bool) : ℕ :=
  (if end_symbol then 1 else 0) + (if start_symbol then 1 else 0)

/-- The common row length (lines 158-162):
`sequence_length = max_length` if no `seq_length` is given, else
`max(seq_length, max_length)` where
`max_length = max(len(token)) + c`.  Python's falsy test
`if not seq_length` treats `seq_length = 0` like `None`; `max 0 m = m`
makes the `some 0` case coincide. -/
def w2ciRowLen (tokens : List String) (end_symbol start_symbol : Bool)
    (seq_length : Option ℕ) : ℕ :=
  let max_length := ((tokens.map String.length).foldr max 0) + numSpecial end_symbol start_symbol
  match seq_length with
  | none => max_length
  | some s => max s max_length

/-- A row before the text is written (lines 165-175): start from
`dummy_index * ones(sequence_length)`, write the start symbol at `shift`
and the end symbol at `len(token) + int(start_symbol) + shift`. -/
def w2ciBase (A : Alph) (end_symbol start_symbol : Bool) (L shift tokLen : ℕ) :
    List ℕ :=
  let row0 := List.replicate L A.dummyIndex
  let row1 := if start_symbol then row0.set shift A.startIndex else row0
  if end_symbol then
    row1.set (tokLen + (if start_symbol then 1 else 0) + shift) A.endIndex
  else row1

/-- One row of the index matrix (lines 165-177): the base row with each
character written at `index + int(start_symbol) + shift`, where
`shift = dif = sequence_length - (len(token) + c)` when padding in
front and `0` otherwise. -/
def w2ciRow (A : Alph) (chars : Char → ℕ)
    (end_symbol start_symbol padding_in_front : Bool) (L : ℕ) (tok : String) :
    List ℕ :=
  let dif := L - (tok.length + numSpecial end_symbol start_symbol)
  let shift := if padding_in_front then dif else 0
  tok.toList.enum.foldl
    (fun row p => row.set (p.1 + (if start_symbol then 1 else 0) + shift) (chars p.2))
    (w2ciBase A end_symbol start_symbol L shift tok.length)

/-- `words_to_char_indices(tokens, end_symbol, start_symbol,
padding_in_front, seq_length)` (lines 143-179): index-matrix encoding of
a list of strings, one row per token.  `chars` abstracts
`char_dictionary.get_idx_for_item` (unknown characters map to the
`<unk>` index inside it). -/
def words_to_char_indices (A : Alph) (chars : Char → ℕ) (tokens : List String)
    (end_symbol start_symbol padding_in_front : Bool) (seq_length : Option ℕ) :
    List (List ℕ) :=
  tokens.map (w2ciRow A chars end_symbol start_symbol padding_in_front
    (w2ciRowLen tokens end_symbol start_symbol seq_length))

theorem le_foldr_max {l : List ℕ} {x : ℕ} (hx : x ∈ l) : x ≤ l.foldr max 0 := by
  induction l with
  | nil => cases hx
  | cons a t ih =>
    rcases List.mem_cons.mp hx with h | h
    · subst h; exact Nat.le_max_left _ _
    · exact le_trans (ih h) (Nat.le_max_right _ _)

/-- Effect of the text-writing fold on one cell: inside the written
window the cell holds the character's index, outside it the underlying
row is unchanged.  Positions are `p.1 + off` for `p` in `l.enumFrom k`. -/
theorem foldl_set_getElem? (g : Char → ℕ) (o1 o2 : ℕ) :
    ∀ (l : List Char) (k : ℕ) (row : List ℕ) (q : ℕ),
    k + o1 + o2 + l.length ≤ row.length →
    ((l.enumFrom k).foldl (fun r p => r.set (p.1 + o1 + o2) (g p.2)) row)[q]? =
      (if k + o1 + o2 ≤ q ∧ q < k + o1 + o2 + l.length then
        (l[q - (k + o1 + o2)]?).map g
      else row[q]?) := by
  intro l
  induction l with
  | nil =>
    intro k row q _
    simp only [List.enumFrom, List.foldl_nil, List.length_nil]
    rw [if_neg (by omega)]
  | cons ch cs ih =>
    intro k row q hrow
    rw [List.enumFrom_cons, List.foldl_cons]
    have hlen : (row.set (k + o1 + o2) (g ch)).length = row.length := List.length_set ..
    have hrec := ih (k + 1) (row.set (k + o1 + o2) (g ch)) q
      (by rw [hlen]; simp only [List.length_cons] at hrow; omega)
    rw [hrec]
    by_cases hwin : k + 1 + o1 + o2 ≤ q ∧ q < k + 1 + o1 + o2 + cs.length
    · rw [if_pos hwin, if_pos (by simp only [List.length_cons]; omega)]
      have hq : q - (k + o1 + o2) = (q - (k + 1 + o1 + o2)) + 1 := by omega
      rw [hq]
      simp
    · rw [if_neg hwin]
      by_cases hq : q = k + o1 + o2
      · subst hq
        rw [if_pos (by simp only [List.length_cons]; omega)]
        rw [List.getElem?_set_self (by simp only [List.length_cons] at hrow; omega)]
        simp
      · rw [List.getElem?_set_ne (by omega)]
        rw [if_neg (by simp only [List.length_cons]; omega)]

theorem foldl_set_length (g : Char → ℕ) (o1 o2 : ℕ) :
    ∀ (l : List (ℕ × Char)) (row : List ℕ),
    (l.foldl (fun r p => r.set (p.1 + o1 + o2) (g p.2)) row).length = row.length := by
  intro l
  induction l with
  | nil => intro row; rfl
  | cons a t ih => intro row; rw [List.foldl_cons, ih, List.length_set]

theorem w2ciBase_length (A : Alph) (e s : Bool) (L shift tokLen : ℕ) :
    (w2ciBase A e s L shift tokLen).length = L := by
  simp only [w2ciBase]
  split_ifs <;> simp

theorem w2ciBase_getElem? (A : Alph) {e s : Bool} {L shift tokLen : ℕ}
    (hfit : shift + tokLen + numSpecial e s ≤ L) (q : ℕ) :
    (w2ciBase A e s L shift tokLen)[q]? =
      (if e = true ∧ q = tokLen + (if s = true then 1 else 0) + shift then some A.endIndex
      else if s = true ∧ q = shift then some A.startIndex
      else if q < L then some A.dummyIndex
      else none) := by
  simp only [numSpecial] at hfit
  rcases e <;> rcases s <;>
    simp only [w2ciBase, Bool.false_eq_true, if_true, if_false, false_and, true_and,
      ite_false, ite_true] at hfit ⊢
  · rw [List.getElem?_replicate]
  · by_cases hq : q = shift
    · subst hq
      rw [List.getElem?_set_self (by simp; omega), if_pos rfl]
    · rw [List.getElem?_set_ne (fun h => hq h.symm), if_neg hq, List.getElem?_replicate]
  · by_cases hq : q = tokLen + 0 + shift
    · subst hq
      rw [List.getElem?_set_self (by simp; omega), if_pos rfl]
    · rw [List.getElem?_set_ne (fun h => hq h.symm), if_neg hq, List.getElem?_replicate]
  · by_cases hq1 : q = tokLen + 1 + shift
    · subst hq1
      rw [List.getElem?_set_self (by simp [List.length_set]; omega), if_pos rfl]
    · rw [List.getElem?_set_ne (fun h => hq1 h.symm), if_neg hq1]
      by_cases hq2 : q = shift
      · subst hq2
        rw [List.getElem?_set_self (by simp; omega), if_pos rfl]
      · rw [List.getElem?_set_ne (fun h => hq2 h.symm), if_neg hq2, List.getElem?_replicate]

theorem w2ciRow_length (A : Alph) (chars : Char → ℕ)
    (e s p : Bool) (L : ℕ) (tok : String) :
    (w2ciRow A chars e s p L tok).length = L := by
  simp only [w2ciRow]
  rw [foldl_set_length, w2ciBase_length]

/-- Pointwise description of one encoded row: text window, end symbol
immediately after the text, start symbol immediately before it, padding
(`dummy_index`) everywhere else. -/
theorem w2ciRow_getElem? (A : Alph) (chars : Char → ℕ)
    {e s p : Bool} {L : ℕ} {tok : String}
    (hL : tok.length + numSpecial e s ≤ L) (q : ℕ) :
    (w2ciRow A chars e s p L tok)[q]? =
      (let sI : ℕ := if s = true then 1 else 0
       let shift : ℕ := if p = true then L - (tok.length + numSpecial e s) else 0
       if sI + shift ≤ q ∧ q < sI + shift + tok.length then
         (tok.toList[q - (sI + shift)]?).map chars
       else if e = true ∧ q = tok.length + sI + shift then some A.endIndex
       else if s = true ∧ q = shift then some A.startIndex
       else if q < L then some A.dummyIndex
       else none) := by
  have htl : tok.toList.length = tok.length := rfl
  have hsc : (if s = true then 1 else 0) ≤ numSpecial e s := by
    simp only [numSpecial]; split_ifs <;> omega
  simp only [w2ciRow]
  rw [show tok.toList.enum = tok.toList.enumFrom 0 from rfl]
  rw [foldl_set_getElem? chars (if s = true then 1 else 0)
    (if p = true then L - (tok.length + numSpecial e s) else 0) tok.toList 0 _ q
    (by rw [w2ciBase_length, htl]; split_ifs at hsc ⊢ <;> omega)]
  rw [w2ciBase_getElem? A (by split_ifs at hsc ⊢ <;> omega) q]
  simp only [Nat.zero_add, htl]

/-! ## List helpers for the flattened beam indexing -/

theorem length_flatten_const {α : Type} {L : List (List α)} {B : ℕ}
    (h : ∀ l ∈ L, l.length = B) : L.flatten.length = L.length * B := by
  induction L with
  | nil => simp
  | cons x t ih =>
    rw [List.flatten_cons, List.length_append, List.length_cons,
      ih (fun l hl => h l (List.mem_cons_of_mem x hl)), h x (List.mem_cons_self x t)]
    ring

/-- Reading cell `t * B + j` of a flattened list of `B`-sized blocks is
reading cell `j` of block `t` — the `beam_numbers` / `seq_numbers`
arithmetic of the code. -/
theorem flatten_getElem?_blocks {α : Type} {L : List (List α)} {B : ℕ}
    (h : ∀ l ∈ L, l.length = B) {t j : ℕ} (hj : j < B) :
    L.flatten[t * B + j]? = (L[t]?).bind (fun l => l[j]?) := by
  induction L generalizing t with
  | nil => simp
  | cons x tl ih =>
    have hx : x.length = B := h x (List.mem_cons_self x tl)
    rw [List.flatten_cons]
    cases t with
    | zero =>
      rw [List.getElem?_append_left (by simp only [Nat.zero_mul, Nat.zero_add]; omega)]
      simp
    | succ t' =>
      have harith : (t' + 1) * B + j = B + (t' * B + j) := by ring
      rw [harith, List.getElem?_append_right (by omega), hx, Nat.add_sub_cancel_left,
        ih (fun l hl => h l (List.mem_cons_of_mem x hl))]
      simp

theorem map_range_getElem? {α : Type} (f : ℕ → α) {N t : ℕ} (ht : t < N) :
    ((List.range N).map f)[t]? = some (f t) := by
  rw [List.getElem?_map, List.getElem?_range ht]
  rfl

theorem map_range_getD {α : Type} (f : ℕ → α) {N t : ℕ} (ht : t < N) (d : α) :
    ((List.range N).map f).getD t d = f t := by
  rw [List.getD_eq_getElem?_getD, map_range_getElem? f ht]
  rfl

theorem mul_le_sum_of_forall_le {l : List ℕ} {c : ℕ} (h : ∀ x ∈ l, c ≤ x) :
    l.length * c ≤ l.sum := by
  induction l with
  | nil => simp
  | cons a t ih =>
    rw [List.length_cons, List.sum_cons, Nat.succ_mul]
    have h1 := h a (List.mem_cons_self a t)
    have h2 := ih (fun x hx => h x (List.mem_cons_of_mem a hx))
    omega

theorem headD_mem {α : Type} {l : List α} (hl : l ≠ []) (d : α) : l.headD d ∈ l := by
  cases l with
  | nil => exact absurd rfl hl
  | cons a t => exact List.mem_cons_self a t

theorem sorted_headD_max {α : Type} {f : α → Score} {l : List α}
    (hs : l.Sorted (descBy f)) {a : α} (ha : a ∈ l) (d : α) :
    f a ≤ f (l.headD d) := by
  cases l with
  | nil => cases ha
  | cons x t =>
    rcases List.mem_cons.mp ha with h | h
    · subst h; exact le_refl _
    · exact (List.sorted_cons.mp hs).1 a h

/-! ## Masking and selection facts -/

/-- Well-formedness of the special symbols: the dictionary holds `<unk>`
plus the three appended special symbols `<>`, `<S>`, `<E>`, so their
indices are distinct and lie within the alphabet. -/
def AlphWF (A : Alph) : Prop :=
  A.dummyIndex < A.n ∧ A.startIndex < A.n ∧ A.endIndex < A.n ∧
  A.dummyIndex ≠ A.startIndex ∧ A.dummyIndex ≠ A.endIndex ∧ A.startIndex ≠ A.endIndex

instance (A : Alph) : Decidable (AlphWF A) := by
  unfold AlphWF
  infer_instance

/-- The decoder's output distribution ranges over the whole alphabet
(`character_decoder` projects to `len(char_dictionary)`). -/
def StepWF (A : Alph) {σ : Type} (M : DecModel σ) : Prop :=
  ∀ s c, ((M.step s c).2).length = A.n

/-- With `beam_size ≤ n - 2`, `topk` over a masked distribution selects
only finite entries, hence never the dummy or the start symbol. -/
theorem topk_mask_sel (A : Alph) {lp : List ℚ} {B : ℕ}
    (hlen : lp.length = A.n) (hB : B + 2 ≤ A.n) (haw : AlphWF A)
    {c : ℕ × Score} (hc : c ∈ topk (maskLP A lp) B) :
    c.2 ≠ ⊥ ∧ c.1 ≠ A.dummyIndex ∧ c.1 ≠ A.startIndex := by
  obtain ⟨hd, hs, he, hds, hde, hse⟩ := haw
  have hcount : (maskLP A lp).countP (fun v => v ≠ ⊥) = lp.length - 2 :=
    maskLP_countP A (by omega) (by omega) hds
  have hnb : c.2 ≠ ⊥ := topk_ne_bot (by omega) hc
  have hget := topk_mem_getElem? hc
  rw [maskLP, List.getElem?_map, List.getElem?_enum] at hget
  refine ⟨hnb, ?_, ?_⟩ <;> intro heq
  · rcases hlp : lp[c.1]? with _ | q
    · rw [hlp] at hget; cases hget
    · rw [hlp] at hget
      simp only [Option.map_some'] at hget
      rw [if_pos (Or.inl heq)] at hget
      exact hnb (Option.some.inj hget).symm
  · rcases hlp : lp[c.1]? with _ | q
    · rw [hlp] at hget; cases hget
    · rw [hlp] at hget
      simp only [Option.map_some'] at hget
      rw [if_pos (Or.inr heq)] at hget
      exact hnb (Option.some.inj hget).symm

/-- The best entry selected by `topk(..., 1)` dominates every entry. -/
theorem topk_one_max {l : List Score} {v : Score} (hv : v ∈ l) :
    v ≤ ((topk l 1).headD (0, ⊥)).2 := by
  obtain ⟨i, hi, hvi⟩ := List.getElem_of_mem hv
  have henum : (i, v) ∈ l.enum := by
    rw [List.mem_enum_iff_getElem?, List.getElem?_eq_getElem hi, hvi]
  have hperm := l.enum.perm_insertionSort (descBy Prod.snd)
  have hmem : (i, v) ∈ l.enum.insertionSort (descBy Prod.snd) := hperm.mem_iff.mpr henum
  rcases hsrt : l.enum.insertionSort (descBy Prod.snd) with _ | ⟨x, rest⟩
  · rw [hsrt] at hmem; cases hmem
  · rw [hsrt] at hmem
    have hone : topk l 1 = [x] := by rw [topk, hsrt, List.take_succ_cons, List.take_zero]
    rw [hone]
    have hsorted := List.sorted_insertionSort (descBy Prod.snd) l.enum
    rw [hsrt] at hsorted
    rcases List.mem_cons.mp hmem with h | h
    · rw [← h]; exact le_refl _
    · exact (List.sorted_cons.mp hsorted).1 (i, v) h

/-! ## Non-batched mode: step and loop facts -/

/-- Character indices that never name the padding or the start symbol. -/
def seqAvoid (A : Alph) (sq : List ℕ) : Prop :=
  ∀ c ∈ sq, c ≠ A.dummyIndex ∧ c ≠ A.startIndex

theorem nbFirst_mem {σ : Type} (A : Alph) (M : DecModel σ) (B : ℕ)
    {g : NBHyp σ} (hg : g ∈ nbFirst A M B) :
    ∃ c ∈ topk (maskLP A (M.step M.init A.startIndex).2) B,
      g = ⟨[c.1], (M.step M.init A.startIndex).1, c.2⟩ := by
  simp only [nbFirst] at hg
  obtain ⟨c, hc, rfl⟩ := List.mem_map.mp hg
  exact ⟨c, hc, rfl⟩

theorem nbFirst_sorted {σ : Type} (A : Alph) (M : DecModel σ) (B : ℕ) :
    (nbFirst A M B).Sorted (descBy NBHyp.score) := by
  simp only [nbFirst]
  exact List.Pairwise.map _ (fun a b hab => hab) (topk_sorted _ _)

theorem nbStepOnce_final_mem {σ : Type} (A : Alph) (M : DecModel σ) (B : ℕ)
    {live : List (NBHyp σ)} {h : NBHyp σ} (hh : h ∈ live) {v : Score}
    (hv : (A.endIndex, v) ∈ (nbRowTop A M B h).2) :
    (h.seq, Score.divNat (h.score + v) (h.seq.length + 1)) ∈ (nbStepOnce A M B live).2 := by
  simp only [nbStepOnce]
  refine List.mem_flatten.mpr ⟨_, List.mem_map_of_mem _ hh, ?_⟩
  refine List.mem_filterMap.mpr ⟨(A.endIndex, v), hv, ?_⟩
  rw [if_pos rfl]

theorem nbStepOnce_final_src {σ : Type} (A : Alph) (M : DecModel σ) (B : ℕ)
    {live : List (NBHyp σ)} {f : List ℕ × Score}
    (hf : f ∈ (nbStepOnce A M B live).2) :
    ∃ h ∈ live, ∃ c ∈ (nbRowTop A M B h).2, c.1 = A.endIndex ∧
      f = (h.seq, Score.divNat (h.score + c.2) (h.seq.length + 1)) := by
  simp only [nbStepOnce] at hf
  obtain ⟨blk, hblk, hfb⟩ := List.mem_flatten.mp hf
  obtain ⟨h, hh, rfl⟩ := List.mem_map.mp hblk
  obtain ⟨c, hc, hfc⟩ := List.mem_filterMap.mp hfb
  by_cases hce : c.1 = A.endIndex
  · rw [if_pos hce] at hfc
    exact ⟨h, hh, c, hc, hce, (Option.some.inj hfc).symm⟩
  · rw [if_neg hce] at hfc
    cases hfc

theorem nbStepOnce_live_mem {σ : Type} (A : Alph) (M : DecModel σ) (B : ℕ)
    {live : List (NBHyp σ)} {g : NBHyp σ} (hg : g ∈ (nbStepOnce A M B live).1) :
    ∃ h ∈ live, ∃ c ∈ (nbRowTop A M B h).2, c.1 ≠ A.endIndex ∧
      g = ⟨h.seq ++ [c.1], (nbRowTop A M B h).1, h.score + c.2⟩ := by
  simp only [nbStepOnce] at hg
  obtain ⟨blk, hblk, hgb⟩ := List.mem_flatten.mp hg
  obtain ⟨h, hh, rfl⟩ := List.mem_map.mp hblk
  obtain ⟨c, hc, hfc⟩ := List.mem_filterMap.mp hgb
  by_cases hce : c.1 = A.endIndex
  · rw [if_pos hce] at hfc; cases hfc
  · rw [if_neg hce] at hfc
    exact ⟨h, hh, c, hc, hce, (Option.some.inj hfc).symm⟩

theorem nbStepOnce_live_complete {σ : Type} (A : Alph) (M : DecModel σ) (B : ℕ)
    {live : List (NBHyp σ)} {h : NBHyp σ} (hh : h ∈ live)
    {c : ℕ × Score} (hc : c ∈ (nbRowTop A M B h).2) (hne : c.1 ≠ A.endIndex) :
    (NBHyp.mk (h.seq ++ [c.1]) (nbRowTop A M B h).1 (h.score + c.2))
      ∈ (nbStepOnce A M B live).1 := by
  simp only [nbStepOnce]
  refine List.mem_flatten.mpr ⟨_, List.mem_map_of_mem _ hh, ?_⟩
  refine List.mem_filterMap.mpr ⟨c, hc, ?_⟩
  rw [if_neg hne]

theorem topCut_subset {σ : Type} {B : ℕ} {l : List (NBHyp σ)} {a : NBHyp σ}
    (ha : a ∈ topCut B l) : a ∈ l :=
  (l.perm_insertionSort (descBy NBHyp.score)).subset ((List.take_sublist _ _).subset ha)

theorem topCut_sorted {σ : Type} (B : ℕ) (l : List (NBHyp σ)) :
    (topCut B l).Sorted (descBy NBHyp.score) :=
  (List.sorted_insertionSort _ _).sublist (List.take_sublist _ _)

theorem topCut_length {σ : Type} (B : ℕ) (l : List (NBHyp σ)) :
    (topCut B l).length = min B l.length := by
  simp [topCut, List.length_take, List.length_insertionSort]

theorem topCut_perm {σ : Type} (B : ℕ) (l : List (NBHyp σ)) :
    List.Perm l (topCut B l ++ (l.insertionSort (descBy NBHyp.score)).drop B) := by
  rw [topCut, List.take_append_drop]
  exact (l.perm_insertionSort _).symm

theorem topCut_dominates {σ : Type} {B : ℕ} {l : List (NBHyp σ)} {a b : NBHyp σ}
    (ha : a ∈ topCut B l) (hb : b ∈ (l.insertionSort (descBy NBHyp.score)).drop B) :
    b.score ≤ a.score :=
  (List.sorted_insertionSort (descBy NBHyp.score) l).rel_of_mem_take_of_mem_drop ha hb

theorem nbLoop_sorted {σ : Type} [Inhabited σ] (A : Alph) (M : DecModel σ) (B : ℕ) :
    ∀ (k : ℕ) (live : List (NBHyp σ)) (fins : List (List ℕ × Score)),
    live.Sorted (descBy NBHyp.score) →
    ((nbLoop A M B k live fins).1).Sorted (descBy NBHyp.score) := by
  intro k
  induction k with
  | zero => intro live fins hs; exact hs
  | succ k ih =>
    intro live fins hs
    simp only [nbLoop]
    split
    · exact hs
    · exact ih _ _ (topCut_sorted B _)

theorem nbLoop_avoid {σ : Type} [Inhabited σ] (A : Alph) (M : DecModel σ) (B : ℕ)
    (hwf : StepWF A M) (haw : AlphWF A) (hB : B + 2 ≤ A.n) :
    ∀ (k : ℕ) (live : List (NBHyp σ)) (fins : List (List ℕ × Score)),
    (∀ h ∈ live, seqAvoid A h.seq) → (∀ f ∈ fins, seqAvoid A f.1) →
    (∀ h ∈ (nbLoop A M B k live fins).1, seqAvoid A h.seq) ∧
    (∀ f ∈ (nbLoop A M B k live fins).2, seqAvoid A f.1) := by
  intro k
  induction k with
  | zero => intro live fins h1 h2; exact ⟨h1, h2⟩
  | succ k ih =>
    intro live fins h1 h2
    have hstep1 : ∀ g ∈ (nbStepOnce A M B live).1, seqAvoid A g.seq := by
      intro g hg
      obtain ⟨h, hh, c, hc, hne, rfl⟩ := nbStepOnce_live_mem A M B hg
      intro x hx
      rcases List.mem_append.mp hx with hx | hx
      · exact h1 h hh x hx
      · rw [List.mem_singleton.mp hx]
        have hsel := topk_mask_sel A (hwf _ _) hB haw hc
        exact ⟨hsel.2.1, hsel.2.2⟩
    have hstep2 : ∀ f ∈ fins ++ (nbStepOnce A M B live).2, seqAvoid A f.1 := by
      intro f hf
      rcases List.mem_append.mp hf with hf | hf
      · exact h2 f hf
      · obtain ⟨h, hh, c, hc, hce, rfl⟩ := nbStepOnce_final_src A M B hf
        exact h1 h hh
    simp only [nbLoop]
    split
    · exact ⟨h1, hstep2⟩
    · exact ih _ _ (fun g hg => hstep1 g (topCut_subset hg)) hstep2

theorem nbFinalsWithFallback_empty {σ : Type} [Inhabited σ] (maxLen : ℕ)
    (res : List (NBHyp σ) × List (List ℕ × Score)) (hf : res.2 = []) :
    nbFinalsWithFallback maxLen res =
      [((res.1.headD default).seq, Score.divNat (res.1.headD default).score maxLen)] := by
  simp [nbFinalsWithFallback, hf]

theorem nbExtract_of_fins_empty {σ : Type} [Inhabited σ] (maxLen : ℕ)
    (res : List (NBHyp σ) × List (List ℕ × Score)) (hf : res.2 = []) :
    nbExtract maxLen res = (res.1.headD default).seq := by
  simp [nbExtract, nbFinalsWithFallback_empty maxLen res hf,
    List.insertionSort, List.orderedInsert]

/-- The extracted sequence comes from a live hypothesis (the fallback) or
from a finalized candidate, or is empty (unreachable in practice). -/
theorem nbExtract_source {σ : Type} [Inhabited σ] (maxLen : ℕ)
    (res : List (NBHyp σ) × List (List ℕ × Score)) :
    nbExtract maxLen res = [] ∨
    (∃ h ∈ res.1, nbExtract maxLen res = h.seq) ∨
    (∃ f ∈ res.2, nbExtract maxLen res = f.1) := by
  by_cases hfe : res.2.isEmpty
  · have hf : res.2 = [] := by rwa [List.isEmpty_iff] at hfe
    rw [nbExtract_of_fins_empty maxLen res hf]
    rcases hlive : res.1 with _ | ⟨x, rest⟩
    · left; rfl
    · right; left
      exact ⟨x, List.mem_cons_self x rest, rfl⟩
  · right; right
    have hne : nbFinalsWithFallback maxLen res = res.2 := by
      simp [nbFinalsWithFallback, hfe]
    rw [nbExtract, hne]
    have hnil : res.2 ≠ [] := by
      intro hh
      rw [hh] at hfe
      exact hfe rfl
    have hsne : res.2.insertionSort (descBy Prod.snd) ≠ [] := by
      intro hh
      have := List.length_insertionSort (descBy Prod.snd) res.2
      rw [hh] at this
      simp at this
      exact hnil (List.length_eq_zero.mp this.symm)
    refine ⟨(res.2.insertionSort (descBy Prod.snd)).headD ([], ⊥), ?_, rfl⟩
    exact (res.2.perm_insertionSort (descBy Prod.snd)).subset (headD_mem hsne _)

/-- With `beam_size = 1`, running the expansion loop from a single live
hypothesis appends exactly the characters greedy decoding would emit. -/
theorem nbLoop_beam1_greedy {σ : Type} [Inhabited σ] (A : Alph) (M : DecModel σ)
    (hwf : StepWF A M) (hn : 1 ≤ A.n) (maxLen : ℕ) :
    ∀ (k : ℕ) (h : NBHyp σ), h.seq ≠ [] →
    nbExtract maxLen (nbLoop A M 1 k [h] []) =
      h.seq ++ greedyGo A M k h.hid (h.seq.getLastD 0) := by
  intro k
  induction k with
  | zero =>
    intro h hne
    simp [nbLoop, nbExtract, nbFinalsWithFallback, greedyGo,
      List.insertionSort, List.orderedInsert]
  | succ k ih =>
    intro h hne
    have hlen1 : ((nbRowTop A M 1 h).2).length = 1 := by
      show (topk (maskLP A (M.step h.hid (h.seq.getLastD 0)).2) 1).length = 1
      rw [topk_length, maskLP_length, hwf]
      omega
    obtain ⟨c, hc⟩ := List.length_eq_one.mp hlen1
    have hctop : topk (maskLP A (M.step h.hid (h.seq.getLastD 0)).2) 1 = [c] := hc
    by_cases hce : c.1 = A.endIndex
    · have hs1 : (nbStepOnce A M 1 [h]).1 = [] := by
        simp [nbStepOnce, hc, hce]
      have hs2 : (nbStepOnce A M 1 [h]).2 =
          [(h.seq, Score.divNat (h.score + c.2) (h.seq.length + 1))] := by
        simp [nbStepOnce, hc, hce]
      have hloop : nbLoop A M 1 (k+1) [h] [] = ([h], [] ++ (nbStepOnce A M 1 [h]).2) := by
        simp only [nbLoop]
        rw [if_pos (by rw [hs1]; rfl)]
      have hg : greedyGo A M (k+1) h.hid (h.seq.getLastD 0) = [] := by
        simp only [greedyGo]
        rw [hctop]
        simp [hce]
      rw [hloop, hg, List.append_nil]
      simp [nbExtract, nbFinalsWithFallback, hs2,
        List.insertionSort, List.orderedInsert]
    · have hs1 : (nbStepOnce A M 1 [h]).1 =
          [⟨h.seq ++ [c.1], (nbRowTop A M 1 h).1, h.score + c.2⟩] := by
        simp [nbStepOnce, hc, hce]
      have hs2 : (nbStepOnce A M 1 [h]).2 = [] := by
        simp [nbStepOnce, hc, hce]
      have hloop : nbLoop A M 1 (k+1) [h] [] =
          nbLoop A M 1 k (topCut 1 (nbStepOnce A M 1 [h]).1)
            ([] ++ (nbStepOnce A M 1 [h]).2) := by
        simp only [nbLoop]
        rw [if_neg (by rw [hs1]; simp)]
      have hcut : topCut 1
          [(⟨h.seq ++ [c.1], (nbRowTop A M 1 h).1, h.score + c.2⟩ : NBHyp σ)] =
          [⟨h.seq ++ [c.1], (nbRowTop A M 1 h).1, h.score + c.2⟩] := by
        simp [topCut, List.insertionSort, List.orderedInsert]
      rw [hloop, hs1, hs2, hcut, List.nil_append]
      have hih := ih ⟨h.seq ++ [c.1], (nbRowTop A M 1 h).1, h.score + c.2⟩ (by simp)
      rw [hih]
      have hgreedy : greedyGo A M (k+1) h.hid (h.seq.getLastD 0) =
          c.1 :: greedyGo A M k (M.step h.hid (h.seq.getLastD 0)).1 c.1 := by
        simp only [greedyGo]
        rw [hctop]
        simp [hce]
      rw [hgreedy]
      have hhid : (nbRowTop A M 1 h).1 = (M.step h.hid (h.seq.getLastD 0)).1 := rfl
      simp [hhid, List.getLastD_concat, List.append_assoc]

/-- With `beam_size = 1` the non-batched search is greedy decoding,
provided the very first chosen character is not the end symbol. -/
theorem nbPredictToken_beam1_greedy {σ : Type} [Inhabited σ] (A : Alph) (M : DecModel σ)
    (hwf : StepWF A M) (hn : 1 ≤ A.n) {maxLen : ℕ} (hml : 1 ≤ maxLen)
    (hc0 : ((topk (maskLP A (M.step M.init A.startIndex).2) 1).headD (0, ⊥)).1
      ≠ A.endIndex) :
    nbPredictToken A M 1 maxLen = greedy A M maxLen := by
  have hlen1 : (topk (maskLP A (M.step M.init A.startIndex).2) 1).length = 1 := by
    rw [topk_length, maskLP_length, hwf]
    omega
  obtain ⟨c, hc⟩ := List.length_eq_one.mp hlen1
  have hfirst : nbFirst A M 1 = [⟨[c.1], (M.step M.init A.startIndex).1, c.2⟩] := by
    simp [nbFirst, hc]
  rw [nbPredictToken, hfirst]
  rw [nbLoop_beam1_greedy A M hwf hn maxLen (maxLen - 1) _ (by simp)]
  obtain ⟨m, rfl⟩ : ∃ m, maxLen = m + 1 := ⟨maxLen - 1, by omega⟩
  have hcne : c.1 ≠ A.endIndex := by
    rw [hc] at hc0
    simpa using hc0
  have hgreedy : greedy A M (m + 1) =
      c.1 :: greedyGo A M m (M.step M.init A.startIndex).1 c.1 := by
    rw [greedy]
    simp only [greedyGo]
    rw [hc]
    simp [hcne]
  rw [hgreedy]
  simp

/-! ## Batched mode: indexing and selection facts -/

theorem getD_map_of_lt {α β : Type} (f : α → β) {l : List α} {j : ℕ}
    (hj : j < l.length) (d : β) (d' : α) :
    (l.map f).getD j d = f (l.getD j d') := by
  rw [List.getD_eq_getElem?_getD, List.getD_eq_getElem?_getD,
    List.getElem?_map, List.getElem?_eq_getElem hj]
  rfl

theorem getD_mem_of_lt {α : Type} {l : List α} {j : ℕ} (hj : j < l.length) (d : α) :
    l.getD j d ∈ l := by
  rw [List.getD_eq_getElem?_getD, List.getElem?_eq_getElem hj]
  simp [List.getElem_mem hj]

theorem getElem?_eq_some_getD {α : Type} {l : List α} {j : ℕ} (hj : j < l.length) (d : α) :
    l[j]? = some (l.getD j d) := by
  rw [List.getD_eq_getElem?_getD, List.getElem?_eq_getElem hj]
  rfl

theorem bRow_length {σ : Type} [Inhabited σ] (A : Alph) (Ms : ℕ → DecModel σ) (B : ℕ)
    (st : BState σ) (r : ℕ) (hwf : ∀ u, StepWF A (Ms u)) (hB : B ≤ A.n) :
    ((bRow A Ms B st r).2).length = B := by
  show (topk (maskLP A
    ((Ms (r / B)).step (st.hidden.getD r default) (st.leading.getD r 0)).2) B).length = B
  rw [topk_length, maskLP_length, hwf]
  omega

theorem bRow_mem_sel {σ : Type} [Inhabited σ] (A : Alph) (Ms : ℕ → DecModel σ) (B : ℕ)
    (st : BState σ) (r : ℕ) (hwf : ∀ u, StepWF A (Ms u)) (hB : B + 2 ≤ A.n)
    (haw : AlphWF A) {c : ℕ × Score} (hc : c ∈ (bRow A Ms B st r).2) :
    c.2 ≠ ⊥ ∧ c.1 ≠ A.dummyIndex ∧ c.1 ≠ A.startIndex :=
  topk_mask_sel A (hwf _ _ _) hB haw hc

theorem countP_eq_le_one_of_nodup {α : Type} [DecidableEq α] {l : List α}
    (hnd : l.Nodup) (e : α) : l.countP (fun i => i = e) ≤ 1 := by
  induction l with
  | nil => simp
  | cons a t ih =>
    rw [List.countP_cons]
    rcases List.nodup_cons.mp hnd with ⟨hna, hndt⟩
    by_cases hae : a = e
    · subst hae
      have hz : t.countP (fun i => i = a) = 0 := by
        rw [List.countP_eq_zero]
        intro b hb
        simp only [decide_eq_true_eq]
        intro hba
        exact hna (hba ▸ hb)
      simp [hz]
    · have := ih hndt
      rw [if_neg (by simp [hae])]
      omega

/-- A list of pairs with pairwise-distinct first components has at most
one entry whose first component is `e`. -/
theorem countP_fst_eq_le_one {β : Type} {l : List (ℕ × β)}
    (hnd : (l.map Prod.fst).Nodup) (e : ℕ) :
    l.countP (fun c => c.1 = e) ≤ 1 := by
  have h1 : l.countP (fun c => c.1 = e) = (l.map Prod.fst).countP (fun i => i = e) := by
    rw [List.countP_map]; rfl
  rw [h1]
  exact countP_eq_le_one_of_nodup hnd e

theorem row_countP_ne_end {β : Type} {l : List (ℕ × β)}
    (hnd : (l.map Prod.fst).Nodup) (e : ℕ) :
    l.length - 1 ≤ l.countP (fun c => c.1 ≠ e) := by
  have hone : l.countP (fun c => c.1 = e) ≤ 1 := countP_fst_eq_le_one hnd e
  have hsum := countP_not_add (fun c : ℕ × β => decide (c.1 = e)) l
  have heq : l.countP (fun c => c.1 ≠ e) = l.countP (fun c => !(decide (c.1 = e))) := by
    apply List.countP_congr
    intro c _
    by_cases hc : c.1 = e <;> simp [hc]
  omega

theorem bFinalsAdd_src {σ : Type} [Inhabited σ] (A : Alph) (Ms : ℕ → DecModel σ)
    (B : ℕ) (st : BState σ) (t : ℕ) {f : List ℕ × Score}
    (hf : f ∈ bFinalsAdd A Ms B st t) :
    ∃ i < B, ∃ c ∈ (bRow A Ms B st (t * B + i)).2, c.1 = A.endIndex ∧
      f = (st.seqs.getD (t * B + i) [],
        Score.divNat (st.scores.getD (t * B + i) ⊥ + c.2)
          ((st.seqs.getD (t * B + i) []).length + 1)) := by
  rw [bFinalsAdd] at hf
  obtain ⟨blk, hblk, hfb⟩ := List.mem_flatten.mp hf
  obtain ⟨i, hir, rfl⟩ := List.mem_map.mp hblk
  obtain ⟨c, hc, hfc⟩ := List.mem_filterMap.mp hfb
  by_cases hce : c.1 = A.endIndex
  · rw [if_pos hce] at hfc
    exact ⟨i, List.mem_range.mp hir, c, hc, hce, (Option.some.inj hfc).symm⟩
  · rw [if_neg hce] at hfc
    cases hfc

theorem bStep_finals_mem {σ : Type} [Inhabited σ] (A : Alph) (Ms : ℕ → DecModel σ)
    (N B : ℕ) (st : BState σ) {tf : List (List ℕ × Score)}
    (htf : tf ∈ (bStep A Ms N B st).finals) :
    ∃ t < N, tf = st.finals.getD t [] ++ bFinalsAdd A Ms B st t := by
  have htf2 : tf ∈ (List.range N).map
      (fun u => st.finals.getD u [] ++ bFinalsAdd A Ms B st u) := htf
  obtain ⟨t, htr, rfl⟩ := List.mem_map.mp htf2
  exact ⟨t, List.mem_range.mp htr, rfl⟩

theorem bStep_seqs_mem {σ : Type} [Inhabited σ] (A : Alph) (Ms : ℕ → DecModel σ)
    (N B : ℕ) (st : BState σ) {sq : List ℕ}
    (hsq : sq ∈ (bStep A Ms N B st).seqs) :
    ∃ t < N, ∃ p ∈ bPicks A Ms B st t,
      sq = st.seqs.getD (t * B + p.1 / B) [] ++
        [((bRow A Ms B st (t * B + p.1 / B)).2.getD (p.1 % B) (0, ⊥)).1] := by
  have hsq2 : sq ∈ (((List.range N).map (fun u => (bPicks A Ms B st u).map
      (fun p => (u * B + p.1 / B, p.1 % B, p.2)))).flatten).map
      (fun q : ℕ × ℕ × Score =>
        st.seqs.getD q.1 [] ++ [((bRow A Ms B st q.1).2.getD q.2.1 (0, ⊥)).1]) := hsq
  obtain ⟨q, hq, rfl⟩ := List.mem_map.mp hsq2
  obtain ⟨blk, hblk, hqb⟩ := List.mem_flatten.mp hq
  obtain ⟨t, htr, rfl⟩ := List.mem_map.mp hblk
  obtain ⟨p, hp, rfl⟩ := List.mem_map.mp hqb
  exact ⟨t, List.mem_range.mp htr, p, hp, rfl⟩

theorem bFirst_seqs_mem {σ : Type} (A : Alph) (Ms : ℕ → DecModel σ) (N B : ℕ)
    {sq : List ℕ} (hsq : sq ∈ (bFirst A Ms N B).seqs) :
    ∃ t < N, ∃ c ∈ topk (maskLP A ((Ms t).step (Ms t).init A.startIndex).2) B,
      sq = [c.1] := by
  have hsq2 : sq ∈ (((List.range N).map (fun t =>
      (((Ms t).step (Ms t).init A.startIndex).1,
        topk (maskLP A ((Ms t).step (Ms t).init A.startIndex).2) B))).map
      (fun p => p.2.map (fun c => [c.1]))).flatten := hsq
  obtain ⟨blk, hblk, hsb⟩ := List.mem_flatten.mp hsq2
  obtain ⟨pp, hpp, rfl⟩ := List.mem_map.mp hblk
  obtain ⟨t, htr, rfl⟩ := List.mem_map.mp hpp
  obtain ⟨c, hc, rfl⟩ := List.mem_map.mp hsb
  exact ⟨t, List.mem_range.mp htr, c, hc, rfl⟩

theorem bFirst_seqs_length {σ : Type} (A : Alph) (Ms : ℕ → DecModel σ) (N B : ℕ)
    (hwf : ∀ u, StepWF A (Ms u)) (hB : B ≤ A.n) :
    (bFirst A Ms N B).seqs.length = N * B := by
  show ((((List.range N).map (fun t =>
      (((Ms t).step (Ms t).init A.startIndex).1,
        topk (maskLP A ((Ms t).step (Ms t).init A.startIndex).2) B))).map
      (fun p => p.2.map (fun c => [c.1]))).flatten).length = N * B
  rw [length_flatten_const (B := B) ?hbl, List.length_map, List.length_map,
    List.length_range]
  case hbl =>
    intro l hl
    obtain ⟨pp, hpp, rfl⟩ := List.mem_map.mp hl
    obtain ⟨t, _, rfl⟩ := List.mem_map.mp hpp
    rw [List.length_map, topk_length, maskLP_length, hwf]
    omega

theorem getD_replicate_nil {α : Type} (N t : ℕ) (d : List α) :
    (List.replicate N ([] : List α)).getD t d = [] ∨
    (List.replicate N ([] : List α)).getD t d = d := by
  rw [List.getD_eq_getElem?_getD, List.getElem?_replicate]
  by_cases h : t < N
  · left; rw [if_pos h]; rfl
  · right; rw [if_neg h]; rfl

theorem bFirst_finals_getD {σ : Type} (A : Alph) (Ms : ℕ → DecModel σ) (N B : ℕ)
    (t : ℕ) : (bFirst A Ms N B).finals.getD t [] = [] := by
  show (List.replicate N ([] : List (List ℕ × Score))).getD t [] = []
  rcases getD_replicate_nil N t [] with h | h <;> exact h

theorem bFallbackTop1_max {σ : Type} (B : ℕ) (st : BState σ) (t : ℕ)
    {i : ℕ} (hi : i < B) :
    st.scores.getD (t * B + i) ⊥ ≤ (bFallbackTop1 B st t).2 := by
  apply topk_one_max
  exact List.mem_map.mpr ⟨i, List.mem_range.mpr hi, rfl⟩

theorem bFinalsWithFallback_of_empty {σ : Type} (B maxLen : ℕ) (st : BState σ) (t : ℕ)
    (hf : st.finals.getD t [] = []) :
    bFinalsWithFallback B maxLen st t =
      [(st.seqs.getD (t * B + (bFallbackTop1 B st t).1) [],
        Score.divNat (bFallbackTop1 B st t).2 maxLen)] := by
  simp only [bFinalsWithFallback]
  rw [if_pos (by rw [hf]; rfl)]

theorem bFinalsWithFallback_of_nonempty {σ : Type} (B maxLen : ℕ) (st : BState σ)
    (t : ℕ) (hf : ¬ (st.finals.getD t []).isEmpty) :
    bFinalsWithFallback B maxLen st t = st.finals.getD t [] := by
  simp only [bFinalsWithFallback]
  rw [if_neg hf]

theorem bFinalsWithFallback_source {σ : Type} (B maxLen : ℕ) (st : BState σ) (t : ℕ)
    {f : List ℕ × Score} (hf : f ∈ bFinalsWithFallback B maxLen st t) :
    (∃ r, f.1 = st.seqs.getD r []) ∨ f ∈ st.finals.getD t [] := by
  by_cases hfe : (st.finals.getD t []).isEmpty
  · left
    rw [bFinalsWithFallback_of_empty B maxLen st t (List.isEmpty_iff.mp hfe)] at hf
    rw [List.mem_singleton.mp hf]
    exact ⟨t * B + (bFallbackTop1 B st t).1, rfl⟩
  · right
    rwa [bFinalsWithFallback_of_nonempty B maxLen st t hfe] at hf

theorem bFinalsWithFallback_ne_nil {σ : Type} (B maxLen : ℕ) (st : BState σ) (t : ℕ) :
    bFinalsWithFallback B maxLen st t ≠ [] := by
  by_cases hfe : (st.finals.getD t []).isEmpty
  · rw [bFinalsWithFallback_of_empty B maxLen st t (List.isEmpty_iff.mp hfe)]
    simp
  · rw [bFinalsWithFallback_of_nonempty B maxLen st t hfe]
    intro hh
    rw [hh] at hfe
    exact hfe rfl

theorem bFinish_choice_mem {σ : Type} (B maxLen : ℕ) (st : BState σ) (t : ℕ) :
    (((bFinalsWithFallback B maxLen st t).insertionSort (descBy Prod.snd)).headD ([], ⊥))
      ∈ bFinalsWithFallback B maxLen st t := by
  have hs : (bFinalsWithFallback B maxLen st t).insertionSort (descBy Prod.snd) ≠ [] := by
    intro hh
    have hl := List.length_insertionSort (descBy Prod.snd) (bFinalsWithFallback B maxLen st t)
    rw [hh] at hl
    simp at hl
    exact bFinalsWithFallback_ne_nil B maxLen st t (List.length_eq_zero.mp hl.symm)
  exact ((bFinalsWithFallback B maxLen st t).perm_insertionSort
    (descBy Prod.snd)).subset (headD_mem hs _)

theorem bLemmas_mem {σ : Type} [Inhabited σ] (A : Alph) (Ms : ℕ → DecModel σ)
    (N B maxLen : ℕ) {sq : List ℕ} (hsq : sq ∈ bLemmas A Ms N B maxLen) :
    ∃ t < N, sq = (((bFinalsWithFallback B maxLen
      (bLoop A Ms N B (maxLen - 1) (bFirst A Ms N B)) t).insertionSort
        (descBy Prod.snd)).headD ([], ⊥)).1 := by
  obtain ⟨t, htr, rfl⟩ := List.mem_map.mp hsq
  exact ⟨t, List.mem_range.mp htr, rfl⟩

/-- What the masking guarantees about the batched state: no live or
finalized sequence contains a masked symbol.  Unlike the score
invariant, this holds for every `beam_size ≥ 1`. -/
def bStAvoid (A : Alph) {σ : Type} (st : BState σ) : Prop :=
  (∀ sq ∈ st.seqs, seqAvoid A sq) ∧ (∀ tf ∈ st.finals, ∀ f ∈ tf, seqAvoid A f.1)

theorem bStAvoid_bFirst {σ : Type} (A : Alph) (Ms : ℕ → DecModel σ) (N B : ℕ)
    (hwf : ∀ u, StepWF A (Ms u)) (haw : AlphWF A) (hBn : B + 2 ≤ A.n) :
    bStAvoid A (bFirst A Ms N B) := by
  constructor
  · intro sq hsq
    obtain ⟨t, _, c, hc, rfl⟩ := bFirst_seqs_mem A Ms N B hsq
    intro x hx
    rw [List.mem_singleton.mp hx]
    have hsel := topk_mask_sel A (hwf t _ _) hBn haw hc
    exact ⟨hsel.2.1, hsel.2.2⟩
  · intro tf htf
    have htf2 : tf ∈ List.replicate N ([] : List (List ℕ × Score)) := htf
    rw [List.eq_of_mem_replicate htf2]
    intro f hf
    cases hf

theorem bStAvoid_bStep {σ : Type} [Inhabited σ] (A : Alph) (Ms : ℕ → DecModel σ)
    (N B : ℕ) (st : BState σ) (hwf : ∀ u, StepWF A (Ms u)) (haw : AlphWF A)
    (hB1 : 1 ≤ B) (hBn : B + 2 ≤ A.n) (h : bStAvoid A st) :
    bStAvoid A (bStep A Ms N B st) := by
  constructor
  · intro sq hsq
    obtain ⟨t, ht, p, hp, rfl⟩ := bStep_seqs_mem A Ms N B st hsq
    intro x hx
    rcases List.mem_append.mp hx with hx | hx
    · by_cases hr : t * B + p.1 / B < st.seqs.length
      · exact h.1 _ (getD_mem_of_lt hr []) x hx
      · rw [List.getD_eq_default _ _ (by omega)] at hx
        cases hx
    · rw [List.mem_singleton.mp hx]
      have hmod : p.1 % B < B := Nat.mod_lt _ (by omega)
      have hrl : ((bRow A Ms B st (t * B + p.1 / B)).2).length = B :=
        bRow_length A Ms B st _ hwf (by omega)
      have hcmem : (bRow A Ms B st (t * B + p.1 / B)).2.getD (p.1 % B) (0, ⊥) ∈
          (bRow A Ms B st (t * B + p.1 / B)).2 :=
        getD_mem_of_lt (by omega) _
      have hsel := bRow_mem_sel A Ms B st _ hwf hBn haw hcmem
      exact ⟨hsel.2.1, hsel.2.2⟩
  · intro tf htf
    obtain ⟨t, ht, rfl⟩ := bStep_finals_mem A Ms N B st htf
    intro f hf
    rcases List.mem_append.mp hf with hf | hf
    · by_cases hr : t < st.finals.length
      · exact h.2 _ (getD_mem_of_lt hr []) f hf
      · rw [List.getD_eq_default _ _ (by omega)] at hf
        cases hf
    · obtain ⟨i, hi, c, hc, hce, rfl⟩ := bFinalsAdd_src A Ms B st t hf
      by_cases hr : t * B + i < st.seqs.length
      · exact h.1 _ (getD_mem_of_lt hr [])
      · rw [List.getD_eq_default _ _ (by omega)]
        intro x hx
        cases hx

theorem bStAvoid_bLoop {σ : Type} [Inhabited σ] (A : Alph) (Ms : ℕ → DecModel σ)
    (N B : ℕ) (hwf : ∀ u, StepWF A (Ms u)) (haw : AlphWF A) (hB1 : 1 ≤ B)
    (hBn : B + 2 ≤ A.n) :
    ∀ (k : ℕ) (st : BState σ), bStAvoid A st →
    bStAvoid A (bLoop A Ms N B k st) := by
  intro k
  induction k with
  | zero => intro st hv; exact hv
  | succ k ih =>
    intro st hv
    exact ih _ (bStAvoid_bStep A Ms N B st hwf haw hB1 hBn hv)

/-- No batched predicted lemma contains the dummy or the start symbol,
for every `1 ≤ beam_size ≤ n - 2`. -/
theorem bLemmas_avoid {σ : Type} [Inhabited σ] (A : Alph) (Ms : ℕ → DecModel σ)
    (N B maxLen : ℕ) (hwf : ∀ u, StepWF A (Ms u)) (haw : AlphWF A)
    (hB1 : 1 ≤ B) (hBn : B + 2 ≤ A.n) :
    ∀ sq ∈ bLemmas A Ms N B maxLen, seqAvoid A sq := by
  intro sq hsq
  obtain ⟨t, ht, rfl⟩ := bLemmas_mem A Ms N B maxLen hsq
  have hav : bStAvoid A (bLoop A Ms N B (maxLen - 1) (bFirst A Ms N B)) :=
    bStAvoid_bLoop A Ms N B hwf haw hB1 hBn _ _
      (bStAvoid_bFirst A Ms N B hwf haw hBn)
  have hmem := bFinish_choice_mem B maxLen
    (bLoop A Ms N B (maxLen - 1) (bFirst A Ms N B)) t
  rcases bFinalsWithFallback_source B maxLen _ t hmem with ⟨r, hr⟩ | hfin
  · rw [hr]
    by_cases hrr : r < (bLoop A Ms N B (maxLen - 1) (bFirst A Ms N B)).seqs.length
    · exact hav.1 _ (getD_mem_of_lt hrr [])
    · rw [List.getD_eq_default _ _ (by omega)]
      intro x hx
      cases hx
  · by_cases hrt : t < (bLoop A Ms N B (maxLen - 1) (bFirst A Ms N B)).finals.length
    · exact hav.2 _ (getD_mem_of_lt hrt []) _ hfin
    · rw [List.getD_eq_default _ _ (by omega)] at hfin
      cases hfin

/-- With `max_length = 1` the loop body never runs, every finalized set
is empty, and the fallback yields each token's best first character:
a non-empty lemma. -/
theorem bLemmas_maxlen_one_ne_nil {σ : Type} [Inhabited σ] (A : Alph)
    (Ms : ℕ → DecModel σ) (N B : ℕ) (hwf : ∀ u, StepWF A (Ms u))
    (hB1 : 1 ≤ B) (hB : B ≤ A.n) :
    ∀ sq ∈ bLemmas A Ms N B 1, sq ≠ [] := by
  intro sq hsq
  obtain ⟨t, ht, rfl⟩ := bLemmas_mem A Ms N B 1 hsq
  have hloop : bLoop A Ms N B (1 - 1) (bFirst A Ms N B) = bFirst A Ms N B := rfl
  rw [hloop, bFinalsWithFallback_of_empty B 1 (bFirst A Ms N B) t
    (bFirst_finals_getD A Ms N B t)]
  simp only [List.insertionSort, List.orderedInsert, List.headD]
  have hslot : (bFallbackTop1 B (bFirst A Ms N B) t).1 < B := by
    have hlen : ((List.range B).map
        (fun i => (bFirst A Ms N B).scores.getD (t * B + i) ⊥)).length = B := by
      simp
    have htk : (topk ((List.range B).map
        (fun i => (bFirst A Ms N B).scores.getD (t * B + i) ⊥)) 1).length = 1 := by
      rw [topk_length, hlen]
      omega
    have hne : topk ((List.range B).map
        (fun i => (bFirst A Ms N B).scores.getD (t * B + i) ⊥)) 1 ≠ [] := by
      intro hh
      rw [hh] at htk
      cases htk
    have hmem := headD_mem hne ((0 : ℕ), (⊥ : Score))
    obtain ⟨hlt, _⟩ := List.getElem?_eq_some.mp (topk_mem_getElem? hmem)
    rw [hlen] at hlt
    exact hlt
  have hidx : t * B + (bFallbackTop1 B (bFirst A Ms N B) t).1 <
      (bFirst A Ms N B).seqs.length := by
    rw [bFirst_seqs_length A Ms N B hwf hB]
    have h1 : t * B + (bFallbackTop1 B (bFirst A Ms N B) t).1 < (t + 1) * B := by
      rw [Nat.succ_mul]
      omega
    have h2 : (t + 1) * B ≤ N * B := Nat.mul_le_mul_right B (by omega)
    omega
  have hmem2 := getD_mem_of_lt hidx ([] : List ℕ)
  obtain ⟨u, _, c, _, heq⟩ := bFirst_seqs_mem A Ms N B hmem2
  rw [heq]
  simp

/-! ## Batched beam search over `torch` scores (`TScore`): the general
embedding, `NaN` included.

The probabilities of the masked symbols are set to `-1`; when
`beam_size > n - 2` the per-row `topk` (which runs over probabilities)
selects such an entry, and `torch.log(-1) = NaN` becomes its
log-probability.  `NaN` propagates through additions (also against
`-inf`), and `torch.topk` ranks it above every number.  `TScore`
captures this: `⊤` is `NaN` (top of the order, absorbing under `+`),
`↑⊥` is `-inf`, `↑↑q` an ordinary log-probability.  The definitions
below repeat the batched pipeline over `TScore`; whenever no masked
symbol is selected they coincide with the `Score` versions. -/

/-- `torch` scores: `NaN` (`⊤`), `-inf` (`↑⊥`), and numbers (`↑↑q`). -/
abbrev TScore := WithTop Score

/-- Division by a (positive) natural length: `NaN / n = NaN`,
`-inf / n = -inf`. -/
def TScore.divNat (s : TScore) (m : ℕ) : TScore := s.map (fun q => Score.divNat q m)

/-- The log-probability the code attaches to a selected candidate
(lines 405, 441: `torch.log` of the selected probability): `NaN` (`⊤`)
for a selected masked entry (its probability was set to `-1`), the
ordinary log-probability otherwise. -/
def tsOf (A : Alph) (c : ℕ × Score) : ℕ × TScore :=
  if c.1 = A.dummyIndex ∨ c.1 = A.startIndex then (c.1, ⊤) else (c.1, (c.2 : TScore))

/-- One decoder invocation: per-row probability `topk` (see `maskLP`),
then `torch.log` on the selected entries. -/
def tRowSel {σ : Type} (A : Alph) (M : DecModel σ) (B : ℕ) (hid : σ) (inp : ℕ) :
    σ × List (ℕ × TScore) :=
  let r := M.step hid inp
  (r.1, (topk (maskLP A r.2) B).map (tsOf A))

/-- The batched beam state over `torch` scores. -/
structure TBState (σ : Type) where
  leading : List ℕ
  hidden : List σ
  scores : List TScore
  seqs : List (List ℕ)
  finals : List (List (List ℕ × TScore))

/-- First pass (lines 375-421) over `torch` scores. -/
def bFirstT {σ : Type} (A : Alph) (Ms : ℕ → DecModel σ) (N B : ℕ) : TBState σ :=
  let per := (List.range N).map (fun t =>
    tRowSel A (Ms t) B (Ms t).init A.startIndex)
  { leading := (per.map (fun p => p.2.map Prod.fst)).flatten
    hidden := (per.map (fun p => p.2.map (fun _ => p.1))).flatten
    scores := (per.map (fun p => p.2.map Prod.snd)).flatten
    seqs := (per.map (fun p => p.2.map (fun c => [c.1]))).flatten
    finals := List.replicate N [] }

/-- One decoder invocation on row `r` (lines 425-440) over `torch`
scores. -/
def bRowT {σ : Type} [Inhabited σ] (A : Alph) (Ms : ℕ → DecModel σ) (B : ℕ)
    (st : TBState σ) (r : ℕ) : σ × List (ℕ × TScore) :=
  tRowSel A (Ms (r / B)) B (st.hidden.getD r default) (st.leading.getD r 0)

/-- `log_probabilities[tuple[0], tuple[1]] = -inf` (line 461).  An
end-symbol candidate is never masked, so its entry is an ordinary
number before the assignment. -/
def zapEndT (A : Alph) (tp : List (ℕ × TScore)) : List (ℕ × TScore) :=
  tp.map (fun c => if c.1 = A.endIndex then (c.1, ((⊥ : Score) : TScore)) else c)

/-- The newly finalized candidates of token `t` (lines 443-458) over
`torch` scores; a `NaN` parent score yields a `NaN` candidate score. -/
def bFinalsAddT {σ : Type} [Inhabited σ] (A : Alph) (Ms : ℕ → DecModel σ) (B : ℕ)
    (st : TBState σ) (t : ℕ) : List (List ℕ × TScore) :=
  ((List.range B).map (fun i =>
    ((bRowT A Ms B st (t * B + i)).2).filterMap (fun c =>
      if c.1 = A.endIndex then
        some (st.seqs.getD (t * B + i) [],
          TScore.divNat (st.scores.getD (t * B + i) ((⊥ : Score) : TScore) + c.2)
            ((st.seqs.getD (t * B + i) []).length + 1))
      else none))).flatten

/-- `hypothesis_scores_per_token` (lines 466-471) over `torch` scores:
`NaN` absorbs, also against the `-inf` of a zapped candidate. -/
def bCandsT {σ : Type} [Inhabited σ] (A : Alph) (Ms : ℕ → DecModel σ) (B : ℕ)
    (st : TBState σ) (t : ℕ) : List TScore :=
  ((List.range B).map (fun i =>
    (zapEndT A (bRowT A Ms B st (t * B + i)).2).map
      (fun c => st.scores.getD (t * B + i) ((⊥ : Score) : TScore) + c.2))).flatten

/-- `hypothesis_scores_per_token.topk(beam_size, 1)` (line 474):
`torch.topk` ranks `NaN` above every number. -/
def bPicksT {σ : Type} [Inhabited σ] (A : Alph) (Ms : ℕ → DecModel σ) (B : ℕ)
    (st : TBState σ) (t : ℕ) : List (ℕ × TScore) :=
  topk (bCandsT A Ms B st t) B

/-- One expansion step (lines 423-508) over `torch` scores, with the
`beam_numbers` / `seq_numbers` index arithmetic of lines 478-501. -/
def bStepT {σ : Type} [Inhabited σ] (A : Alph) (Ms : ℕ → DecModel σ) (N B : ℕ)
    (st : TBState σ) : TBState σ :=
  let pickRows := ((List.range N).map (fun t =>
    (bPicksT A Ms B st t).map (fun p => (t * B + p.1 / B, p.1 % B, p.2)))).flatten
  { leading := pickRows.map (fun q => ((bRowT A Ms B st q.1).2.getD q.2.1 (0, ⊤)).1)
    hidden := pickRows.map (fun q => (bRowT A Ms B st q.1).1)
    scores := pickRows.map (fun q => q.2.2)
    seqs := pickRows.map (fun q =>
      st.seqs.getD q.1 [] ++ [((bRowT A Ms B st q.1).2.getD q.2.1 (0, ⊤)).1])
    finals := (List.range N).map (fun t =>
      st.finals.getD t [] ++ bFinalsAddT A Ms B st t) }

/-- The `for j in range(1, max_length)` loop (line 423) over `torch`
scores. -/
def bLoopT {σ : Type} [Inhabited σ] (A : Alph) (Ms : ℕ → DecModel σ) (N B : ℕ) :
    ℕ → TBState σ → TBState σ
  | 0, st => st
  | k+1, st => bLoopT A Ms N B k (bStepT A Ms N B st)

/-- `scores.view(number_tokens, -1).topk(1, 1)` for token `t`
(line 512): `torch.topk`, a `NaN` row ranked first. -/
def bFallbackTop1T {σ : Type} (B : ℕ) (st : TBState σ) (t : ℕ) : ℕ × TScore :=
  (topk ((List.range B).map (fun i =>
    st.scores.getD (t * B + i) ((⊥ : Score) : TScore))) 1).headD (0, ⊤)

/-- Fallback for token `t` (lines 514-520) over `torch` scores. -/
def bFinalsWithFallbackT {σ : Type} (B maxLen : ℕ) (st : TBState σ) (t : ℕ) :
    List (List ℕ × TScore) :=
  let fins := st.finals.getD t []
  if fins.isEmpty then
    [(st.seqs.getD (t * B + (bFallbackTop1T B st t).1) [],
      TScore.divNat (bFallbackTop1T B st t).2 maxLen)]
  else fins

/-- Per-token extraction (lines 522-526).  The code sorts with Python
`sorted`, whose comparisons do not order `NaN`; the stable descending
`insertionSort` used here coincides with it whenever the candidate list
holds no `NaN` or is a singleton — the only situations in which this
development evaluates it. -/
def bFinishT {σ : Type} [Inhabited σ] (N B maxLen : ℕ) (st : TBState σ) :
    List (List ℕ) :=
  (List.range N).map (fun t =>
    (((bFinalsWithFallbackT B maxLen st t).insertionSort
      (descBy Prod.snd)).headD ([], ⊤)).1)

/-- Batched prediction over `torch` scores. -/
def bLemmasT {σ : Type} [Inhabited σ] (A : Alph) (Ms : ℕ → DecModel σ)
    (N B maxLen : ℕ) : List (List ℕ) :=
  bFinishT N B maxLen (bLoopT A Ms N B (maxLen - 1) (bFirstT A Ms N B))

/-! ## `torch`-score embedding: selection and invariant facts -/

theorem tsOf_fst (A : Alph) (c : ℕ × Score) : (tsOf A c).1 = c.1 := by
  rw [tsOf]
  split <;> rfl

/-- A `torch` score that is an ordinary number (neither `NaN` nor
`-inf`). -/
def TScore.IsNum (v : TScore) : Prop := ∃ q : ℚ, v = ((q : Score) : TScore)

theorem TScore.IsNum.ne_top {v : TScore} (h : v.IsNum) : v ≠ ⊤ := by
  obtain ⟨q, rfl⟩ := h
  exact WithTop.coe_ne_top

theorem TScore.IsNum.ne_binf {v : TScore} (h : v.IsNum) :
    v ≠ ((⊥ : Score) : TScore) := by
  obtain ⟨q, rfl⟩ := h
  intro hcon
  exact WithBot.coe_ne_bot (WithTop.coe_inj.mp hcon)

theorem TScore.IsNum.add {v w : TScore} (hv : v.IsNum) (hw : w.IsNum) :
    (v + w).IsNum := by
  obtain ⟨q, rfl⟩ := hv
  obtain ⟨r, rfl⟩ := hw
  exact ⟨q + r, by rw [← WithTop.coe_add, ← WithBot.coe_add]⟩

theorem TScore.isNum_of {v : TScore} (h1 : v ≠ ⊤) (h2 : v ≠ ((⊥ : Score) : TScore)) :
    v.IsNum := by
  rcases v with _ | x
  · exact absurd rfl h1
  · rcases x with _ | q
    · exact absurd rfl h2
    · exact ⟨q, rfl⟩

theorem TScore.add_binf {v : TScore} (h : v.IsNum) :
    v + ((⊥ : Score) : TScore) = ((⊥ : Score) : TScore) := by
  obtain ⟨q, rfl⟩ := h
  rw [← WithTop.coe_add, WithBot.add_bot]

theorem tRowSel_length {σ : Type} (A : Alph) (M : DecModel σ) (B : ℕ)
    (hid : σ) (inp : ℕ) (hwf : StepWF A M) (hB : B ≤ A.n) :
    ((tRowSel A M B hid inp).2).length = B := by
  show ((topk (maskLP A (M.step hid inp).2) B).map (tsOf A)).length = B
  rw [List.length_map, topk_length, maskLP_length, hwf]
  omega

theorem tRowSel_mem {σ : Type} (A : Alph) (M : DecModel σ) (B : ℕ)
    (hid : σ) (inp : ℕ) {d : ℕ × TScore} (hd : d ∈ (tRowSel A M B hid inp).2) :
    ∃ c ∈ topk (maskLP A (M.step hid inp).2) B, d = tsOf A c := by
  obtain ⟨c, hc, heq⟩ := List.mem_map.mp hd
  exact ⟨c, hc, heq.symm⟩

/-- In the `beam_size ≤ n - 2` regime every selected entry is unmasked:
its character avoids the masked symbols and its `log` is an ordinary
number. -/
theorem tRowSel_mem_sel {σ : Type} (A : Alph) (M : DecModel σ) (B : ℕ)
    (hid : σ) (inp : ℕ) (hwf : StepWF A M) (hBn : B + 2 ≤ A.n) (haw : AlphWF A)
    {d : ℕ × TScore} (hd : d ∈ (tRowSel A M B hid inp).2) :
    d.2.IsNum ∧ d.1 ≠ A.dummyIndex ∧ d.1 ≠ A.startIndex := by
  obtain ⟨c, hc, rfl⟩ := tRowSel_mem A M B hid inp hd
  have hsel := topk_mask_sel A (hwf _ _) hBn haw hc
  have hts : tsOf A c = (c.1, (c.2 : TScore)) := by
    rw [tsOf, if_neg (by push_neg; exact ⟨hsel.2.1, hsel.2.2⟩)]
  rw [hts]
  refine ⟨?_, hsel.2.1, hsel.2.2⟩
  obtain ⟨q, hq⟩ := WithBot.ne_bot_iff_exists.mp hsel.1
  exact ⟨q, by rw [← hq]⟩

theorem tRowSel_nodup_fst {σ : Type} (A : Alph) (M : DecModel σ) (B : ℕ)
    (hid : σ) (inp : ℕ) :
    (((tRowSel A M B hid inp).2).map Prod.fst).Nodup := by
  show ((((topk (maskLP A (M.step hid inp).2) B).map (tsOf A)).map Prod.fst)).Nodup
  rw [List.map_map]
  have hfun : (Prod.fst ∘ tsOf A) =
      (Prod.fst : ℕ × Score → ℕ) := by
    funext c
    exact tsOf_fst A c
  rw [hfun]
  exact topk_nodup_fst _ _

theorem bRowT_length {σ : Type} [Inhabited σ] (A : Alph) (Ms : ℕ → DecModel σ)
    (B : ℕ) (st : TBState σ) (r : ℕ) (hwf : ∀ u, StepWF A (Ms u)) (hB : B ≤ A.n) :
    ((bRowT A Ms B st r).2).length = B :=
  tRowSel_length A (Ms (r / B)) B _ _ (hwf _) hB

theorem bRowT_mem_sel {σ : Type} [Inhabited σ] (A : Alph) (Ms : ℕ → DecModel σ)
    (B : ℕ) (st : TBState σ) (r : ℕ) (hwf : ∀ u, StepWF A (Ms u))
    (hBn : B + 2 ≤ A.n) (haw : AlphWF A) {d : ℕ × TScore}
    (hd : d ∈ (bRowT A Ms B st r).2) :
    d.2.IsNum ∧ d.1 ≠ A.dummyIndex ∧ d.1 ≠ A.startIndex :=
  tRowSel_mem_sel A (Ms (r / B)) B _ _ (hwf _) hBn haw hd

theorem zapEndT_length (A : Alph) (tp : List (ℕ × TScore)) :
    (zapEndT A tp).length = tp.length := List.length_map tp _

theorem bCandsT_length {σ : Type} [Inhabited σ] (A : Alph) (Ms : ℕ → DecModel σ)
    (B : ℕ) (st : TBState σ) (t : ℕ) (hwf : ∀ u, StepWF A (Ms u)) (hB : B ≤ A.n) :
    (bCandsT A Ms B st t).length = B * B := by
  rw [bCandsT, length_flatten_const (B := B) ?hblocks]
  · rw [List.length_map, List.length_range]
  case hblocks =>
    intro l hl
    obtain ⟨i, _, rfl⟩ := List.mem_map.mp hl
    rw [List.length_map, zapEndT_length, bRowT_length A Ms B st _ hwf hB]

/-- Value of candidate `m` of token `t` over `torch` scores. -/
theorem bCandsT_getElem {σ : Type} [Inhabited σ] (A : Alph) (Ms : ℕ → DecModel σ)
    (B : ℕ) (st : TBState σ) (t : ℕ) (hwf : ∀ u, StepWF A (Ms u)) (hB : B ≤ A.n)
    {m : ℕ} (hm : m < B * B) :
    (bCandsT A Ms B st t)[m]? =
      some (st.scores.getD (t * B + m / B) ((⊥ : Score) : TScore) +
      (if ((bRowT A Ms B st (t * B + m / B)).2.getD (m % B) (0, ⊤)).1 = A.endIndex
       then ((⊥ : Score) : TScore)
       else ((bRowT A Ms B st (t * B + m / B)).2.getD (m % B) (0, ⊤)).2)) := by
  have hB0 : 0 < B := by
    rcases Nat.eq_zero_or_pos B with h | h
    · subst h; simp at hm
    · exact h
  have hdiv : m / B < B := Nat.div_lt_of_lt_mul (by omega)
  have hmod : m % B < B := Nat.mod_lt _ hB0
  have hrl : ((bRowT A Ms B st (t * B + m / B)).2).length = B :=
    bRowT_length A Ms B st _ hwf hB
  have hblocks : ∀ l ∈ (List.range B).map (fun i =>
      (zapEndT A (bRowT A Ms B st (t * B + i)).2).map
        (fun c => st.scores.getD (t * B + i) ((⊥ : Score) : TScore) + c.2)),
      l.length = B := by
    intro l hl
    obtain ⟨i, _, rfl⟩ := List.mem_map.mp hl
    rw [List.length_map, zapEndT_length, bRowT_length A Ms B st _ hwf hB]
  have hflat := flatten_getElem?_blocks (L := (List.range B).map (fun i =>
      (zapEndT A (bRowT A Ms B st (t * B + i)).2).map
        (fun c => st.scores.getD (t * B + i) ((⊥ : Score) : TScore) + c.2)))
    hblocks (t := m / B) hmod
  rw [Nat.div_add_mod' m B] at hflat
  rw [bCandsT, hflat, map_range_getElem? _ hdiv]
  show (((zapEndT A (bRowT A Ms B st (t * B + m / B)).2).map
      (fun c => st.scores.getD (t * B + m / B) ((⊥ : Score) : TScore) + c.2))[m % B]?) = _
  rw [List.getElem?_map,
    show zapEndT A (bRowT A Ms B st (t * B + m / B)).2 =
      (bRowT A Ms B st (t * B + m / B)).2.map
        (fun c => if c.1 = A.endIndex then (c.1, ((⊥ : Score) : TScore)) else c) from rfl,
    List.getElem?_map,
    getElem?_eq_some_getD (by rw [hrl]; exact hmod) (0, ⊤)]
  by_cases hce : ((bRowT A Ms B st (t * B + m / B)).2.getD (m % B) (0, ⊤)).1 = A.endIndex
  · simp only [Option.map_some']
    rw [if_pos hce, if_pos hce]
  · simp only [Option.map_some']
    rw [if_neg hce, if_neg hce]

/-- When no masked symbol was selected, each row still offers at least
`beam_size - 1` candidates that are neither `NaN` nor zapped to `-inf`. -/
theorem bCandsT_count_ne_bot {σ : Type} [Inhabited σ] (A : Alph) (Ms : ℕ → DecModel σ)
    (N B : ℕ) (st : TBState σ) (t : ℕ)
    (hwf : ∀ u, StepWF A (Ms u)) (haw : AlphWF A) (h2B : 2 ≤ B) (hBn : B + 2 ≤ A.n)
    (hsnum : ∀ v ∈ st.scores, v.IsNum) (hslen : st.scores.length = N * B) (ht : t < N) :
    B ≤ (bCandsT A Ms B st t).countP (fun v => v ≠ ⊥) := by
  rw [bCandsT, List.countP_flatten]
  have hblock : ∀ i ∈ List.range B, B - 1 ≤
      (((zapEndT A (bRowT A Ms B st (t * B + i)).2).map
        (fun c => st.scores.getD (t * B + i) ((⊥ : Score) : TScore) + c.2)).countP
          (fun v => v ≠ ⊥)) := by
    intro i hir
    have hi : i < B := List.mem_range.mp hir
    have hscore : (st.scores.getD (t * B + i) ((⊥ : Score) : TScore)).IsNum := by
      apply hsnum
      apply getD_mem_of_lt
      rw [hslen]
      have h1 : t * B + i < (t + 1) * B := by rw [Nat.succ_mul]; omega
      have h2 : (t + 1) * B ≤ N * B := Nat.mul_le_mul_right B (by omega)
      omega
    have hnd : (((bRowT A Ms B st (t * B + i)).2).map Prod.fst).Nodup :=
      tRowSel_nodup_fst A (Ms ((t * B + i) / B)) B _ _
    rw [show zapEndT A (bRowT A Ms B st (t * B + i)).2 =
        ((bRowT A Ms B st (t * B + i)).2).map
          (fun c => if c.1 = A.endIndex then (c.1, ((⊥ : Score) : TScore)) else c)
        from rfl,
      List.map_map, List.countP_map]
    have hcong : ((bRowT A Ms B st (t * B + i)).2).countP
        ((fun v : TScore => decide (v ≠ ⊥)) ∘
          ((fun c : ℕ × TScore =>
            st.scores.getD (t * B + i) ((⊥ : Score) : TScore) + c.2) ∘
            (fun c : ℕ × TScore =>
              if c.1 = A.endIndex then (c.1, ((⊥ : Score) : TScore)) else c))) =
        ((bRowT A Ms B st (t * B + i)).2).countP (fun c => c.1 ≠ A.endIndex) := by
      apply List.countP_congr
      intro c hc
      have hcnum : c.2.IsNum := (bRowT_mem_sel A Ms B st _ hwf hBn haw hc).1
      by_cases hce : c.1 = A.endIndex
      · simp only [Function.comp_apply, if_pos hce]
        simp only [decide_eq_true_eq]
        refine iff_of_false ?_ (not_not_intro hce)
        intro hcon
        obtain ⟨q, hq⟩ := hscore
        apply hcon
        rw [hq, ← WithTop.coe_add, WithBot.add_bot]
        rfl
      · simp only [Function.comp_apply, if_neg hce]
        simp only [decide_eq_true_eq]
        refine iff_of_true ?_ hce
        exact (hscore.add hcnum).ne_binf
    rw [hcong]
    have hrl : ((bRowT A Ms B st (t * B + i)).2).length = B :=
      bRowT_length A Ms B st _ hwf (by omega)
    have := row_countP_ne_end hnd A.endIndex
    omega
  have hfa : ∀ x ∈ ((List.range B).map (fun i =>
      (zapEndT A (bRowT A Ms B st (t * B + i)).2).map
        (fun c => st.scores.getD (t * B + i) ((⊥ : Score) : TScore) + c.2))).map
      (List.countP (fun v => decide (v ≠ ⊥))), B - 1 ≤ x := by
    intro x hx
    obtain ⟨blk, hblk, rfl⟩ := List.mem_map.mp hx
    obtain ⟨i, hir, rfl⟩ := List.mem_map.mp hblk
    exact hblock i hir
  have hsum := mul_le_sum_of_forall_le hfa
  rw [List.length_map, List.length_map, List.length_range] at hsum
  have hBB : B * 1 ≤ B * (B - 1) := Nat.mul_le_mul_left B (by omega)
  omega

/-- When no masked symbol was selected, no candidate score is `NaN`. -/
theorem bCandsT_no_top {σ : Type} [Inhabited σ] (A : Alph) (Ms : ℕ → DecModel σ)
    (B : ℕ) (st : TBState σ) (t : ℕ)
    (hwf : ∀ u, StepWF A (Ms u)) (haw : AlphWF A) (hBn : B + 2 ≤ A.n)
    (hsnum : ∀ v ∈ st.scores, v.IsNum) :
    ∀ v ∈ bCandsT A Ms B st t, v ≠ ⊤ := by
  intro v hv
  rw [bCandsT] at hv
  obtain ⟨blk, hblk, hvb⟩ := List.mem_flatten.mp hv
  obtain ⟨i, hir, rfl⟩ := List.mem_map.mp hblk
  obtain ⟨c, hc, rfl⟩ := List.mem_map.mp hvb
  rw [zapEndT] at hc
  obtain ⟨d, hd, hcd⟩ := List.mem_map.mp hc
  have hdnum := (bRowT_mem_sel A Ms B st (t * B + i) hwf hBn haw hd).1
  have hsne : st.scores.getD (t * B + i) ((⊥ : Score) : TScore) ≠ ⊤ := by
    by_cases hr : t * B + i < st.scores.length
    · exact (hsnum _ (getD_mem_of_lt hr _)).ne_top
    · rw [List.getD_eq_default _ _ (by omega)]
      exact WithTop.coe_ne_top
  have hcne : c.2 ≠ ⊤ := by
    by_cases hce : d.1 = A.endIndex
    · rw [← hcd, if_pos hce]
      exact WithTop.coe_ne_top
    · rw [← hcd, if_neg hce]
      exact hdnum.ne_top
  intro hcon
  rcases WithTop.add_eq_top.mp hcon with h | h
  · exact hsne h
  · exact hcne h

theorem bPicksT_length {σ : Type} [Inhabited σ] (A : Alph) (Ms : ℕ → DecModel σ)
    (B : ℕ) (st : TBState σ) (t : ℕ) (hwf : ∀ u, StepWF A (Ms u)) (hB : B ≤ A.n) :
    (bPicksT A Ms B st t).length = B := by
  rw [bPicksT, topk_length, bCandsT_length A Ms B st t hwf hB]
  rcases Nat.eq_zero_or_pos B with h | h
  · subst h; rfl
  · have := Nat.le_mul_of_pos_left B h
    omega

theorem bPicksT_flat_lt {σ : Type} [Inhabited σ] (A : Alph) (Ms : ℕ → DecModel σ)
    (B : ℕ) (st : TBState σ) (t : ℕ) (hwf : ∀ u, StepWF A (Ms u)) (hB : B ≤ A.n)
    {p : ℕ × TScore} (hp : p ∈ bPicksT A Ms B st t) : p.1 < B * B := by
  obtain ⟨h, _⟩ := List.getElem?_eq_some.mp (topk_mem_getElem? hp)
  rwa [bCandsT_length A Ms B st t hwf hB] at h

/-- When no masked symbol was selected (`2 ≤ beam_size ≤ n - 2`, all
live scores ordinary numbers), every picked candidate is an ordinary
number, is not an end-symbol continuation, and carries the cumulative
score `scores[beam] + log_probabilities[beam][slot]`. -/
theorem bPicksT_spec {σ : Type} [Inhabited σ] (A : Alph) (Ms : ℕ → DecModel σ)
    (N B : ℕ) (st : TBState σ) (t : ℕ)
    (hwf : ∀ u, StepWF A (Ms u)) (haw : AlphWF A) (h2B : 2 ≤ B) (hBn : B + 2 ≤ A.n)
    (hsnum : ∀ v ∈ st.scores, v.IsNum) (hslen : st.scores.length = N * B) (ht : t < N)
    {p : ℕ × TScore} (hp : p ∈ bPicksT A Ms B st t) :
    p.2.IsNum ∧
    ((bRowT A Ms B st (t * B + p.1 / B)).2.getD (p.1 % B) (0, ⊤)).1 ≠ A.endIndex ∧
    p.2 = st.scores.getD (t * B + p.1 / B) ((⊥ : Score) : TScore) +
      ((bRowT A Ms B st (t * B + p.1 / B)).2.getD (p.1 % B) (0, ⊤)).2 := by
  have hne : p.2 ≠ ⊥ :=
    topk_ne_bot (bCandsT_count_ne_bot A Ms N B st t hwf haw h2B hBn hsnum hslen ht) hp
  have hpm : p.2 ∈ bCandsT A Ms B st t := by
    obtain ⟨h, hval⟩ := List.getElem?_eq_some.mp (topk_mem_getElem? hp)
    exact hval ▸ List.getElem_mem h
  have hnt : p.2 ≠ ⊤ := bCandsT_no_top A Ms B st t hwf haw hBn hsnum p.2 hpm
  have hflat : p.1 < B * B := bPicksT_flat_lt A Ms B st t hwf (by omega) hp
  have hval := topk_mem_getElem? hp
  rw [bCandsT_getElem A Ms B st t hwf (by omega) hflat] at hval
  have hveq := Option.some.inj hval
  have hsne : st.scores.getD (t * B + p.1 / B) ((⊥ : Score) : TScore) ≠ ⊤ := by
    by_cases hr : t * B + p.1 / B < st.scores.length
    · exact (hsnum _ (getD_mem_of_lt hr _)).ne_top
    · rw [List.getD_eq_default _ _ (by omega)]
      exact WithTop.coe_ne_top
  by_cases hce : ((bRowT A Ms B st (t * B + p.1 / B)).2.getD (p.1 % B) (0, ⊤)).1
      = A.endIndex
  · exfalso
    rw [if_pos hce] at hveq
    apply hne
    rw [← hveq]
    obtain ⟨x, hx⟩ := WithTop.ne_top_iff_exists.mp hsne
    rw [← hx, ← WithTop.coe_add, WithBot.add_bot]
    rfl
  · rw [if_neg hce] at hveq
    exact ⟨TScore.isNum_of hnt (fun hcon => hne hcon), hce, hveq.symm⟩

theorem bFinalsAddT_mem {σ : Type} [Inhabited σ] (A : Alph) (Ms : ℕ → DecModel σ)
    (B : ℕ) (st : TBState σ) {t i : ℕ} (hi : i < B) {v : TScore}
    (hv : (A.endIndex, v) ∈ (bRowT A Ms B st (t * B + i)).2) :
    (st.seqs.getD (t * B + i) [],
      TScore.divNat (st.scores.getD (t * B + i) ((⊥ : Score) : TScore) + v)
        ((st.seqs.getD (t * B + i) []).length + 1)) ∈ bFinalsAddT A Ms B st t := by
  rw [bFinalsAddT]
  refine List.mem_flatten.mpr ⟨_, List.mem_map_of_mem _ (List.mem_range.mpr hi), ?_⟩
  refine List.mem_filterMap.mpr ⟨(A.endIndex, v), hv, ?_⟩
  rw [if_pos rfl]

theorem bFinalsAddT_src {σ : Type} [Inhabited σ] (A : Alph) (Ms : ℕ → DecModel σ)
    (B : ℕ) (st : TBState σ) (t : ℕ) {f : List ℕ × TScore}
    (hf : f ∈ bFinalsAddT A Ms B st t) :
    ∃ i < B, ∃ c ∈ (bRowT A Ms B st (t * B + i)).2, c.1 = A.endIndex ∧
      f = (st.seqs.getD (t * B + i) [],
        TScore.divNat (st.scores.getD (t * B + i) ((⊥ : Score) : TScore) + c.2)
          ((st.seqs.getD (t * B + i) []).length + 1)) := by
  rw [bFinalsAddT] at hf
  obtain ⟨blk, hblk, hfb⟩ := List.mem_flatten.mp hf
  obtain ⟨i, hir, rfl⟩ := List.mem_map.mp hblk
  obtain ⟨c, hc, hfc⟩ := List.mem_filterMap.mp hfb
  by_cases hce : c.1 = A.endIndex
  · rw [if_pos hce] at hfc
    exact ⟨i, List.mem_range.mp hir, c, hc, hce, (Option.some.inj hfc).symm⟩
  · rw [if_neg hce] at hfc
    cases hfc

theorem bStepT_finals_getD {σ : Type} [Inhabited σ] (A : Alph) (Ms : ℕ → DecModel σ)
    (N B : ℕ) (st : TBState σ) {t : ℕ} (ht : t < N) :
    ((bStepT A Ms N B st).finals).getD t [] =
      st.finals.getD t [] ++ bFinalsAddT A Ms B st t := by
  show ((List.range N).map
    (fun u => st.finals.getD u [] ++ bFinalsAddT A Ms B st u)).getD t [] = _
  rw [map_range_getD _ ht]

theorem bStepT_finals_mem {σ : Type} [Inhabited σ] (A : Alph) (Ms : ℕ → DecModel σ)
    (N B : ℕ) (st : TBState σ) {tf : List (List ℕ × TScore)}
    (htf : tf ∈ (bStepT A Ms N B st).finals) :
    ∃ t < N, tf = st.finals.getD t [] ++ bFinalsAddT A Ms B st t := by
  have htf2 : tf ∈ (List.range N).map
      (fun u => st.finals.getD u [] ++ bFinalsAddT A Ms B st u) := htf
  obtain ⟨t, htr, rfl⟩ := List.mem_map.mp htf2
  exact ⟨t, List.mem_range.mp htr, rfl⟩

theorem bStepT_seqs_mem {σ : Type} [Inhabited σ] (A : Alph) (Ms : ℕ → DecModel σ)
    (N B : ℕ) (st : TBState σ) {sq : List ℕ}
    (hsq : sq ∈ (bStepT A Ms N B st).seqs) :
    ∃ t < N, ∃ p ∈ bPicksT A Ms B st t,
      sq = st.seqs.getD (t * B + p.1 / B) [] ++
        [((bRowT A Ms B st (t * B + p.1 / B)).2.getD (p.1 % B) (0, ⊤)).1] := by
  have hsq2 : sq ∈ (((List.range N).map (fun u => (bPicksT A Ms B st u).map
      (fun p => (u * B + p.1 / B, p.1 % B, p.2)))).flatten).map
      (fun q : ℕ × ℕ × TScore =>
        st.seqs.getD q.1 [] ++ [((bRowT A Ms B st q.1).2.getD q.2.1 (0, ⊤)).1]) := hsq
  obtain ⟨q, hq, rfl⟩ := List.mem_map.mp hsq2
  obtain ⟨blk, hblk, hqb⟩ := List.mem_flatten.mp hq
  obtain ⟨t, htr, rfl⟩ := List.mem_map.mp hblk
  obtain ⟨p, hp, rfl⟩ := List.mem_map.mp hqb
  exact ⟨t, List.mem_range.mp htr, p, hp, rfl⟩

theorem bStepT_scores_mem {σ : Type} [Inhabited σ] (A : Alph) (Ms : ℕ → DecModel σ)
    (N B : ℕ) (st : TBState σ) {v : TScore}
    (hv : v ∈ (bStepT A Ms N B st).scores) :
    ∃ t < N, ∃ p ∈ bPicksT A Ms B st t, v = p.2 := by
  have hv2 : v ∈ (((List.range N).map (fun u => (bPicksT A Ms B st u).map
      (fun p => (u * B + p.1 / B, p.1 % B, p.2)))).flatten).map
      (fun q : ℕ × ℕ × TScore => q.2.2) := hv
  obtain ⟨q, hq, rfl⟩ := List.mem_map.mp hv2
  obtain ⟨blk, hblk, hqb⟩ := List.mem_flatten.mp hq
  obtain ⟨t, htr, rfl⟩ := List.mem_map.mp hblk
  obtain ⟨p, hp, rfl⟩ := List.mem_map.mp hqb
  exact ⟨t, List.mem_range.mp htr, p, hp, rfl⟩

theorem bStepT_scores_length {σ : Type} [Inhabited σ] (A : Alph) (Ms : ℕ → DecModel σ)
    (N B : ℕ) (st : TBState σ) (hwf : ∀ u, StepWF A (Ms u)) (hB : B ≤ A.n) :
    (bStepT A Ms N B st).scores.length = N * B := by
  show ((((List.range N).map (fun u => (bPicksT A Ms B st u).map
      (fun p => (u * B + p.1 / B, p.1 % B, p.2)))).flatten).map
      (fun q : ℕ × ℕ × TScore => q.2.2)).length = N * B
  rw [List.length_map, length_flatten_const (B := B) ?hbl, List.length_map,
    List.length_range]
  case hbl =>
    intro l hl
    obtain ⟨u, _, rfl⟩ := List.mem_map.mp hl
    rw [List.length_map, bPicksT_length A Ms B st u hwf hB]

theorem bFirstT_seqs_mem {σ : Type} (A : Alph) (Ms : ℕ → DecModel σ) (N B : ℕ)
    {sq : List ℕ} (hsq : sq ∈ (bFirstT A Ms N B).seqs) :
    ∃ t < N, ∃ c ∈ (tRowSel A (Ms t) B (Ms t).init A.startIndex).2, sq = [c.1] := by
  have hsq2 : sq ∈ (((List.range N).map (fun t =>
      tRowSel A (Ms t) B (Ms t).init A.startIndex)).map
      (fun p => p.2.map (fun c => [c.1]))).flatten := hsq
  obtain ⟨blk, hblk, hsb⟩ := List.mem_flatten.mp hsq2
  obtain ⟨pp, hpp, rfl⟩ := List.mem_map.mp hblk
  obtain ⟨t, htr, rfl⟩ := List.mem_map.mp hpp
  obtain ⟨c, hc, rfl⟩ := List.mem_map.mp hsb
  exact ⟨t, List.mem_range.mp htr, c, hc, rfl⟩

theorem bFirstT_scores_mem {σ : Type} (A : Alph) (Ms : ℕ → DecModel σ) (N B : ℕ)
    {v : TScore} (hv : v ∈ (bFirstT A Ms N B).scores) :
    ∃ t < N, ∃ c ∈ (tRowSel A (Ms t) B (Ms t).init A.startIndex).2, v = c.2 := by
  have hv2 : v ∈ (((List.range N).map (fun t =>
      tRowSel A (Ms t) B (Ms t).init A.startIndex)).map
      (fun p => p.2.map Prod.snd)).flatten := hv
  obtain ⟨blk, hblk, hvb⟩ := List.mem_flatten.mp hv2
  obtain ⟨pp, hpp, rfl⟩ := List.mem_map.mp hblk
  obtain ⟨t, htr, rfl⟩ := List.mem_map.mp hpp
  obtain ⟨c, hc, rfl⟩ := List.mem_map.mp hvb
  exact ⟨t, List.mem_range.mp htr, c, hc, rfl⟩

theorem bFirstT_scores_length {σ : Type} (A : Alph) (Ms : ℕ → DecModel σ) (N B : ℕ)
    (hwf : ∀ u, StepWF A (Ms u)) (hB : B ≤ A.n) :
    (bFirstT A Ms N B).scores.length = N * B := by
  show ((((List.range N).map (fun t =>
      tRowSel A (Ms t) B (Ms t).init A.startIndex)).map
      (fun p => p.2.map Prod.snd)).flatten).length = N * B
  rw [length_flatten_const (B := B) ?hbl, List.length_map, List.length_map,
    List.length_range]
  case hbl =>
    intro l hl
    obtain ⟨pp, hpp, rfl⟩ := List.mem_map.mp hl
    obtain ⟨t, _, rfl⟩ := List.mem_map.mp hpp
    rw [List.length_map, tRowSel_length A (Ms t) B _ _ (hwf t) hB]

theorem bFirstT_finals_getD {σ : Type} (A : Alph) (Ms : ℕ → DecModel σ) (N B : ℕ)
    (t : ℕ) : (bFirstT A Ms N B).finals.getD t [] = [] := by
  show (List.replicate N ([] : List (List ℕ × TScore))).getD t [] = []
  rcases getD_replicate_nil N t [] with h | h <;> exact h

/-- The score invariant of the reachable batched states in the
`2 ≤ beam_size ≤ n - 2` regime: all live scores are ordinary numbers
(so no `NaN` ever enters the state), and the score vector has its
nominal size. -/
structure TBInv (A : Alph) {σ : Type} (Ms : ℕ → DecModel σ) (N B : ℕ)
    (st : TBState σ) : Prop where
  len_scores : st.scores.length = N * B
  num_scores : ∀ v ∈ st.scores, v.IsNum

theorem bInvT_bFirst {σ : Type} [Inhabited σ] (A : Alph) (Ms : ℕ → DecModel σ)
    (N B : ℕ) (hwf : ∀ u, StepWF A (Ms u)) (haw : AlphWF A) (hBn : B + 2 ≤ A.n) :
    TBInv A Ms N B (bFirstT A Ms N B) := by
  refine ⟨bFirstT_scores_length A Ms N B hwf (by omega), ?_⟩
  intro v hv
  obtain ⟨t, _, c, hc, rfl⟩ := bFirstT_scores_mem A Ms N B hv
  exact (tRowSel_mem_sel A (Ms t) B _ _ (hwf t) hBn haw hc).1

theorem bInvT_bStep {σ : Type} [Inhabited σ] (A : Alph) (Ms : ℕ → DecModel σ)
    (N B : ℕ) (st : TBState σ) (hwf : ∀ u, StepWF A (Ms u)) (haw : AlphWF A)
    (h2B : 2 ≤ B) (hBn : B + 2 ≤ A.n) (hinv : TBInv A Ms N B st) :
    TBInv A Ms N B (bStepT A Ms N B st) := by
  refine ⟨bStepT_scores_length A Ms N B st hwf (by omega), ?_⟩
  intro v hv
  obtain ⟨t, ht, p, hp, rfl⟩ := bStepT_scores_mem A Ms N B st hv
  exact (bPicksT_spec A Ms N B st t hwf haw h2B hBn hinv.num_scores
    hinv.len_scores ht hp).1

theorem bInvT_bLoop {σ : Type} [Inhabited σ] (A : Alph) (Ms : ℕ → DecModel σ)
    (N B : ℕ) (hwf : ∀ u, StepWF A (Ms u)) (haw : AlphWF A) (h2B : 2 ≤ B)
    (hBn : B + 2 ≤ A.n) :
    ∀ (k : ℕ) (st : TBState σ), TBInv A Ms N B st →
    TBInv A Ms N B (bLoopT A Ms N B k st) := by
  intro k
  induction k with
  | zero => intro st hinv; exact hinv
  | succ k ih =>
    intro st hinv
    exact ih _ (bInvT_bStep A Ms N B st hwf haw h2B hBn hinv)

/-! ## `predict`: configuration effect, sentence handling, return value
(lines 310-342, 540-544, 720-724, 726-747) -/

/-- The model-configuration fields that `predict` reads or writes
(`__init__`, lines 67-74). -/
structure LemmConfig where
  beam_size : ℕ
  batching_in_rnn : Bool
  max_sequence_length : ℕ
  dependent_on_input : Bool
deriving DecidableEq

/-- Lines 327-328: `if self.beam_size == 1: self.batching_in_rnn = False`
— the in-place configuration mutation performed at the top of every
`predict` call, before any sentence is examined. -/
def predictConfigEffect (m : LemmConfig) : LemmConfig :=
  if m.beam_size = 1 then { m with batching_in_rnn := false } else m

/-- The persisted entries of `_get_state_dict` (lines 726-747) that the
claims mention, in particular `"batching_in_rnn": self.batching_in_rnn`
(line 743). -/
structure LemmStateDict where
  beam_size : ℕ
  batching_in_rnn : Bool
  max_sequence_length : ℕ
  dependent_on_input : Bool
deriving DecidableEq

def lemmatizerGetStateDict (m : LemmConfig) : LemmStateDict :=
  { beam_size := m.beam_size
    batching_in_rnn := m.batching_in_rnn
    max_sequence_length := m.max_sequence_length
    dependent_on_input := m.dependent_on_input }

/-- The decoding cap (lines 339-342): the fixed `max_sequence_length`
when `max_sequence_length_dependent_on_input` is off, otherwise
`max(len(token.text) + 1)` over every token of every (already filtered)
sentence.  Python's `max` of an empty sequence would raise, but `predict`
returns early when no nonempty sentence remains, and on nonempty input
`foldr max 0` computes the same value. -/
def predictMaxLen (m : LemmConfig) (sentences : List (List String)) : ℕ :=
  if ¬ m.dependent_on_input then m.max_sequence_length
  else ((sentences.flatten).map (fun w => w.length + 1)).foldr max 0

/-- The non-batched `predict` over a list of sentences, each a list of
word texts (lines 310-342 and 540-718): empty sentences are filtered out
(line 334), the cap is computed once for the whole call (lines 339-342),
and every remaining token is decoded on its own (lines 553-716).  `enc`
abstracts the per-word encoder (`encode` / the per-token encoder RNN of
lines 560-573): the `DecModel` of a word is a function of its text
alone. -/
def nbPredictSentences {σ : Type} [Inhabited σ] (A : Alph) (enc : String → DecModel σ)
    (m : LemmConfig) (sentences : List (List String)) : List (List (List ℕ)) :=
  let sents := sentences.filter (fun s => 0 < s.length)
  sents.map (fun s => s.map (fun w =>
    nbPredictToken A (enc w) m.beam_size (predictMaxLen m sents)))

/-- The value `predict` returns: the filtered (hence empty) sentence list
when every sentence is empty (lines 335-336), the pair
`(overall_loss, number_tokens_in_total)` when `return_loss` is set
(lines 723-724), and Python's implicit `None` otherwise.  The annotated
sentences are never returned; annotation happens by in-place mutation
(`token.add_tag`, lines 536 and 716).  The per-token loss contribution
(a cross-entropy of network outputs) is abstracted as `lossOf`. -/
inductive PredictRet where
  | sentencesOut (ss : List (List String))
  | lossPair (loss : ℚ) (count : ℕ)
  | pyNone
deriving DecidableEq

def predictReturn (return_loss : Bool) (lossOf : String → ℚ)
    (sentences : List (List String)) : PredictRet :=
  let sents := sentences.filter (fun s => 0 < s.length)
  if sents.length = 0 then .sentencesOut sents
  else if return_loss then
    .lossPair ((sents.flatten.map lossOf).sum) sents.flatten.length
  else .pyNone

/-- The in-place annotations `predict` attaches under `label_name`
(`token.remove_labels(label_name)` then `token.add_tag(...)`): every
token of every nonempty sentence is paired with its predicted lemma
(`lem` abstracts the per-token decoding result of the configured mode). -/
def predictAnnotations (lem : String → List ℕ) (sentences : List (List String)) :
    List (List (String × List ℕ)) :=
  (sentences.filter (fun s => 0 < s.length)).map (fun s => s.map (fun w => (w, lem w)))

/-- The attention layer of `decode` (lines 211-218) for one decoding
step of one token, reduced to the quantities that matter for batch
invariance.  In the batched mode the encoder-output matrix of a token
has `R` positions holding real content and `P` padded positions, where
`P` grows with the longest word of the batch (`words_to_char_indices`
over all tokens, lines 236-239): `pad_packed_sequence` pads with zeros
and line 277 zeroes the dummy positions, so a padded position holds the
zero vector — but the softmax over the position dimension still gives
it the unnormalized weight `exp 0 = 1`.  With `u i > 0` standing for
`exp ⟨encoder output i, decoder output⟩` and `enc i` for the
(one-dimensional) encoder output of real position `i`, the attention
output is `Σ u i * enc i / (Σ u i + P)`: padded positions contribute
nothing to the numerator and `P` to the denominator. -/
def attentionOutput (R P : ℕ) (u : ℕ → ℚ) (enc : ℕ → ℚ) : ℚ :=
  (((List.range R).map (fun i => u i * enc i)).sum) /
    ((((List.range R).map u).sum) + (P : ℚ))

/-! ## Concrete decoder instances used in the example computations -/

/-- A five-symbol alphabet: `<unk> = 0`, `<> = 1`, `<S> = 2`, `<E> = 3`,
plus one ordinary character `4`. -/
def A5 : Alph := ⟨5, 1, 2, 3⟩

/-- A four-symbol alphabet: only `<unk>` and the special symbols. -/
def A4 : Alph := ⟨4, 1, 2, 3⟩

/-- A stateless decoder over `A5` whose most probable character is always
the end symbol. -/
def Mend : DecModel Unit := ⟨(), fun _ _ => ((), [-3, -5, -5, -1, -2])⟩

/-- A stateless decoder over `A5` whose most probable character is always
the ordinary character `4`; the end symbol is never ranked highest. -/
def Ma : DecModel Unit := ⟨(), fun _ _ => ((), [-3, -5, -5, -8, -1])⟩

/-- A stateless decoder over `A4`: after masking, only `<unk>` and the
end symbol keep a finite log-probability. -/
def M4 : DecModel Unit := ⟨(), fun _ _ => ((), [-3, -5, -5, -1])⟩

instance (A : Alph) (sq : List ℕ) : Decidable (seqAvoid A sq) := by
  unfold seqAvoid
  infer_instance

/-- The nine per-token candidate scores of the `A4`/`M4` instance
(`beam_size = 3 > n - 2`) after the first pass, over `torch` scores.
The first-pass rows selected the characters `3, 0, 1` with scores
`-1, -3, NaN` (`1` is masked, `torch.log(-1) = NaN`).  In the expansion
step the end-symbol candidate of the two numeric rows is zapped to
`-inf`; every candidate of the `NaN` parent row is `NaN`, and so is the
masked continuation of each numeric row: the flat candidate vector is
`[-inf, -4, NaN, -inf, -6, NaN, NaN, NaN, NaN]`. -/
theorem bCandsT_path_eval :
    bCandsT A4 (fun _ => M4) 3 (bFirstT A4 (fun _ => M4) 1 3) 0 =
      [((⊥ : Score) : TScore), (((-4 : ℚ) : Score) : TScore), ⊤,
       ((⊥ : Score) : TScore), (((-6 : ℚ) : Score) : TScore), ⊤, ⊤, ⊤, ⊤] := by
  have h : bCandsT A4 (fun _ => M4) 3 (bFirstT A4 (fun _ => M4) 1 3) 0 =
      [((⊥ : Score) : TScore),
       (((-1 : ℚ) : Score) : TScore) + (((-3 : ℚ) : Score) : TScore), ⊤,
       ((⊥ : Score) : TScore),
       (((-3 : ℚ) : Score) : TScore) + (((-3 : ℚ) : Score) : TScore),
       ⊤, ⊤, ⊤, ⊤] := rfl
  rw [h, ← WithTop.coe_add, ← WithBot.coe_add, ← WithTop.coe_add, ← WithBot.coe_add]
  norm_num

/-- `torch.topk` ranks `NaN` above every number, so the per-token
re-ranking selects the three `NaN` candidates with the smallest flat
indices: `2`, `5` and `6`.  Index `6` is the end-symbol continuation of
the `NaN` row (`6 / 3 = 2`, slot `6 % 3 = 0`), which was finalized in
this very step — its `-inf` zap is absorbed by the `NaN` parent
score. -/
theorem bPicksT_path_eval :
    bPicksT A4 (fun _ => M4) 3 (bFirstT A4 (fun _ => M4) 1 3) 0 =
      [(2, ⊤), (5, ⊤), (6, ⊤)] := by
  show topk (bCandsT A4 (fun _ => M4) 3 (bFirstT A4 (fun _ => M4) 1 3) 0) 3 = _
  rw [bCandsT_path_eval]
  decide

/-! ## Further helper lemmas for the claims -/

/-- The common row length of `words_to_char_indices` as the spec states
it: `max(min_length, longest + #inserted symbols)`. -/
theorem w2ciRowLen_eq (tokens : List String) (e s : Bool) (q : Option ℕ) :
    w2ciRowLen tokens e s q =
      max (q.getD 0) (((tokens.map String.length).foldr max 0) + numSpecial e s) := by
  cases q with
  | none => simp [w2ciRowLen]
  | some v => simp [w2ciRowLen]

/-- Every token fits in a row together with the inserted symbols. -/
theorem w2ciRowLen_ge (tokens : List String) (e s : Bool) (q : Option ℕ)
    {tok : String} (htok : tok ∈ tokens) :
    tok.length + numSpecial e s ≤ w2ciRowLen tokens e s q := by
  have h1 : tok.length ≤ (tokens.map String.length).foldr max 0 :=
    le_foldr_max (List.mem_map_of_mem String.length htok)
  rw [w2ciRowLen_eq]
  omega

/-- With `max_length = 1` the non-batched loop body never runs, no
candidate is finalized, and the fallback returns the best first
character: a non-empty lemma. -/
theorem nbPredictToken_maxlen_one_ne_nil {σ : Type} [Inhabited σ] (A : Alph)
    (M : DecModel σ) (B : ℕ) (hwf : StepWF A M) (hB1 : 1 ≤ B) (hn : 1 ≤ A.n) :
    nbPredictToken A M B 1 ≠ [] := by
  rw [nbPredictToken]
  have hloop : nbLoop A M B (1 - 1) (nbFirst A M B) [] = (nbFirst A M B, []) := rfl
  rw [hloop, nbExtract_of_fins_empty 1 _ rfl]
  have hlen : (nbFirst A M B).length = min B A.n := by
    rw [nbFirst]
    rw [List.length_map, topk_length, maskLP_length, hwf]
  have hne : nbFirst A M B ≠ [] := by
    intro hh
    rw [hh] at hlen
    simp at hlen
    omega
  obtain ⟨c, _, heq⟩ := nbFirst_mem A M B (headD_mem hne default)
  rw [heq]
  simp

/-- No non-batched predicted lemma contains the dummy or the start
symbol, provided `beam_size ≤ n - 2`. -/
theorem nbPredictToken_avoid {σ : Type} [Inhabited σ] (A : Alph) (M : DecModel σ)
    (B maxLen : ℕ) (hwf : StepWF A M) (haw : AlphWF A) (hBn : B + 2 ≤ A.n) :
    seqAvoid A (nbPredictToken A M B maxLen) := by
  have hfirst : ∀ h ∈ nbFirst A M B, seqAvoid A h.seq := by
    intro h hh
    obtain ⟨c, hc, rfl⟩ := nbFirst_mem A M B hh
    intro x hx
    rw [List.mem_singleton.mp hx]
    have hsel := topk_mask_sel A (hwf _ _) hBn haw hc
    exact ⟨hsel.2.1, hsel.2.2⟩
  have hloop := nbLoop_avoid A M B hwf haw hBn (maxLen - 1) (nbFirst A M B) []
    hfirst (fun f hf => absurd hf (List.not_mem_nil f))
  rcases nbExtract_source maxLen (nbLoop A M B (maxLen - 1) (nbFirst A M B) []) with
    hnil | ⟨h, hh, heq⟩ | ⟨f, hf, heq⟩
  · rw [nbPredictToken, hnil]
    intro x hx
    cases hx
  · rw [nbPredictToken, heq]
    exact hloop.1 h hh
  · rw [nbPredictToken, heq]
    exact hloop.2 f hf

/-- Every first-pass selection of the batched mode contributes its
character as a one-character live sequence. -/
theorem bFirst_seqs_intro {σ : Type} (A : Alph) (Ms : ℕ → DecModel σ) (N B : ℕ)
    {t : ℕ} (ht : t < N) {c : ℕ × Score}
    (hc : c ∈ topk (maskLP A ((Ms t).step (Ms t).init A.startIndex).2) B) :
    [c.1] ∈ (bFirst A Ms N B).seqs := by
  show [c.1] ∈ (((List.range N).map (fun u =>
    (((Ms u).step (Ms u).init A.startIndex).1,
      topk (maskLP A ((Ms u).step (Ms u).init A.startIndex).2) B))).map
    (fun p => p.2.map (fun c0 => [c0.1]))).flatten
  refine List.mem_flatten.mpr
    ⟨_, ?_, List.mem_map_of_mem (fun c0 : ℕ × Score => [c0.1]) hc⟩
  refine List.mem_map.mpr ⟨(((Ms t).step (Ms t).init A.startIndex).1,
    topk (maskLP A ((Ms t).step (Ms t).init A.startIndex).2) B), ?_, rfl⟩
  exact List.mem_map.mpr ⟨t, List.mem_range.mpr ht, rfl⟩

/-! ## The claims -/

/-- C9: calling `predict` on a model constructed with `beam_size = 1`
permanently sets `batching_in_rnn` to `False` (lines 327-328): the
change is idempotent across further `predict` calls, it is written into
the exported model state (`_get_state_dict`, line 743), and it alters
the configuration of a model that had `batching_in_rnn = True` —
prediction mutates model state beyond the sentences being annotated. -/
theorem C9_predict_mutates_config (m : LemmConfig) (h1 : m.beam_size = 1)
    (h2 : m.batching_in_rnn = true) :
    (predictConfigEffect m).batching_in_rnn = false ∧
    predictConfigEffect (predictConfigEffect m) = predictConfigEffect m ∧
    (lemmatizerGetStateDict (predictConfigEffect m)).batching_in_rnn = false ∧
    predictConfigEffect m ≠ m := by
  refine ⟨by simp [predictConfigEffect, h1], by simp [predictConfigEffect, h1],
    by simp [predictConfigEffect, lemmatizerGetStateDict, h1], ?_⟩
  intro heq
  have h3 := congrArg LemmConfig.batching_in_rnn heq
  simp [predictConfigEffect, h1, h2] at h3

theorem C9_witness :
    (predictConfigEffect ⟨1, true, 20, true⟩).batching_in_rnn = false ∧
    predictConfigEffect (predictConfigEffect ⟨1, true, 20, true⟩) =
      predictConfigEffect ⟨1, true, 20, true⟩ ∧
    (lemmatizerGetStateDict (predictConfigEffect ⟨1, true, 20, true⟩)).batching_in_rnn
      = false ∧
    predictConfigEffect ⟨1, true, 20, true⟩ ≠ ⟨1, true, 20, true⟩ :=
  C9_predict_mutates_config ⟨1, true, 20, true⟩ rfl rfl

/-- C8 counterexample: on an input with one nonempty sentence and
`return_loss` off, `predict` returns Python's `None`, not the annotated
sentences. -/
theorem C8_counterexample :
    predictReturn false (fun _ => 0) [["hi"]] = PredictRet.pyNone ∧
    PredictRet.pyNone ≠ PredictRet.sentencesOut [["hi"]] := by decide

/-- C8 (amended): on input with at least one nonempty sentence, `predict`
annotates every token of every nonempty sentence in place with its
predicted lemma (empty sentences are filtered out), and returns the pair
`(total_loss, token_count)` when `return_loss` is set and `None`
otherwise — never the annotated sentences. -/
theorem C8_predict_interface (return_loss : Bool) (lossOf : String → ℚ)
    (lem : String → List ℕ) (sentences : List (List String))
    (hne : sentences.filter (fun s => 0 < s.length) ≠ []) :
    predictAnnotations lem sentences =
      (sentences.filter (fun s => 0 < s.length)).map
        (fun s => s.map (fun w => (w, lem w))) ∧
    predictReturn return_loss lossOf sentences =
      (if return_loss then
        PredictRet.lossPair
          (((sentences.filter (fun s => 0 < s.length)).flatten.map lossOf).sum)
          (sentences.filter (fun s => 0 < s.length)).flatten.length
      else PredictRet.pyNone) ∧
    predictReturn return_loss lossOf sentences ≠
      PredictRet.sentencesOut (sentences.filter (fun s => 0 < s.length)) := by
  have hlen : ¬ (sentences.filter (fun s => 0 < s.length)).length = 0 := by
    simpa [List.length_eq_zero] using hne
  have hret : predictReturn return_loss lossOf sentences =
      (if return_loss then
        PredictRet.lossPair
          (((sentences.filter (fun s => 0 < s.length)).flatten.map lossOf).sum)
          (sentences.filter (fun s => 0 < s.length)).flatten.length
      else PredictRet.pyNone) := by
    simp only [predictReturn]
    rw [if_neg hlen]
  refine ⟨rfl, hret, ?_⟩
  rw [hret]
  cases return_loss
  · simp
  · simp

theorem C8_witness :
    predictReturn true (fun _ => (1 : ℚ)) [["hi"]] ≠
      PredictRet.sentencesOut (([["hi"]] : List (List String)).filter
        (fun s => 0 < s.length)) :=
  (C8_predict_interface true (fun _ => (1 : ℚ)) (fun _ => [0]) [["hi"]]
    (by decide)).2.2

/-- C4 counterexample: with `beam_size = 1` both execution paths agree
(the dispatch always takes the non-batched path), but they are not pure
greedy decoding: when the most probable first character is the end
symbol, the search appends it unchecked and predicts `[<E>]`, while
greedy decoding stops at the end symbol and predicts the empty
sequence. -/
theorem C4_counterexample :
    predictDispatch true A5 Mend 1 2 = [3] ∧
    predictDispatch false A5 Mend 1 2 = [3] ∧
    greedy A5 Mend 2 = [] ∧
    predictDispatch true A5 Mend 1 2 ≠ greedy A5 Mend 2 := by decide

/-- C4 (amended): with `beam_size = 1` the batched and the non-batched
decoding paths produce identical predicted lemmas (lines 327-328 force
the non-batched path in both configurations), and they equal pure greedy
decoding provided the most probable first character is not the end
symbol. -/
theorem C4_beam1_greedy {σ : Type} [Inhabited σ] (A : Alph) (M : DecModel σ)
    (maxLen : ℕ) (b : Bool) (hwf : StepWF A M) (hn : 1 ≤ A.n) (hml : 1 ≤ maxLen)
    (hc0 : ((topk (maskLP A (M.step M.init A.startIndex).2) 1).headD (0, ⊥)).1
      ≠ A.endIndex) :
    predictDispatch b A M 1 maxLen = predictDispatch (!b) A M 1 maxLen ∧
    predictDispatch b A M 1 maxLen = nbPredictToken A M 1 maxLen ∧
    nbPredictToken A M 1 maxLen = greedy A M maxLen := by
  refine ⟨?_, ?_, nbPredictToken_beam1_greedy A M hwf hn hml hc0⟩ <;>
    simp [predictDispatch]

theorem C4_witness :
    predictDispatch true A5 Ma 1 2 = predictDispatch false A5 Ma 1 2 ∧
    predictDispatch true A5 Ma 1 2 = nbPredictToken A5 Ma 1 2 ∧
    nbPredictToken A5 Ma 1 2 = greedy A5 Ma 2 :=
  C4_beam1_greedy A5 Ma 2 true (fun _ _ => rfl) (by decide) (by decide) (by decide)

/-- C5 counterexample, two independent leaks.  Conjuncts 1-3: with the
input-dependent cap (lines 339-342) the decoding cap of a word depends
on the longest word of the whole batch — the word `"a"` decoded alone
(cap `2`) and decoded next to the unrelated word `"abc"` (cap `4`)
receives different lemmas under a model that never predicts the end
symbol.  Conjuncts 4-6: even with a fixed cap, the batched path is not
batch invariant: the attention output of the same word with the same
content (`R = 1`, `u = enc = 1`) differs between a batch padding it
with one position and a batch padding it with three (`1/2` versus
`1/4`), because the zeroed padded positions keep their `exp 0` softmax
weight. -/
theorem C5_counterexample :
    ((nbPredictSentences A5 (fun _ => Ma) ⟨1, false, 20, true⟩
      [["a"]]).headD []).headD [] = [4, 4] ∧
    ((nbPredictSentences A5 (fun _ => Ma) ⟨1, false, 20, true⟩
      [["a", "abc"]]).headD []).headD [] = [4, 4, 4, 4] ∧
    ((nbPredictSentences A5 (fun _ => Ma) ⟨1, false, 20, true⟩
      [["a"]]).headD []).headD [] ≠
    ((nbPredictSentences A5 (fun _ => Ma) ⟨1, false, 20, true⟩
      [["a", "abc"]]).headD []).headD [] ∧
    attentionOutput 1 1 (fun _ => 1) (fun _ => 1) = 1 / 2 ∧
    attentionOutput 1 3 (fun _ => 1) (fun _ => 1) = 1 / 4 ∧
    attentionOutput 1 1 (fun _ => 1) (fun _ => 1) ≠
      attentionOutput 1 3 (fun _ => 1) (fun _ => 1) := by
  refine ⟨by decide, by decide, by decide, ?_, ?_, ?_⟩ <;>
    norm_num [attentionOutput, show List.range 1 = [0] from rfl]

/-- C5 (amended): in the non-batched mode with the input-independent cap
(`max_sequence_length_dependent_on_input` off), each word's predicted
lemma is a function of that word alone, so predicting a word by itself
and inside a larger batch agree. -/
theorem C5_batch_invariance {σ : Type} [Inhabited σ] (A : Alph)
    (enc : String → DecModel σ) (m : LemmConfig) (sentences : List (List String))
    (w : String) (hdep : m.dependent_on_input = false) :
    nbPredictSentences A enc m sentences =
      (sentences.filter (fun s => 0 < s.length)).map (fun s => s.map (fun wd =>
        nbPredictToken A (enc wd) m.beam_size m.max_sequence_length)) ∧
    ((nbPredictSentences A enc m [[w]]).headD []).headD [] =
      nbPredictToken A (enc w) m.beam_size m.max_sequence_length := by
  have hml : ∀ ss : List (List String), predictMaxLen m ss = m.max_sequence_length := by
    intro ss
    simp [predictMaxLen, hdep]
  constructor
  · simp only [nbPredictSentences, hml]
  · simp only [nbPredictSentences, hml]
    simp [List.filter]

theorem C5_witness :
    ((nbPredictSentences A5 (fun _ => Ma) ⟨1, false, 2, false⟩
      [["a"]]).headD []).headD [] = nbPredictToken A5 Ma 1 2 :=
  (C5_batch_invariance A5 (fun _ => Ma) ⟨1, false, 2, false⟩ [["a"]] "a" rfl).2

/-- C6 counterexample: with `beam_size = 3` over a four-symbol alphabet,
only `n - 2 = 2` characters keep a finite probability after masking, so
the third selected candidate is a masked symbol: the first pass selects
the dummy (padding) symbol `1` as a live hypothesis. -/
theorem C6_counterexample :
    [1] ∈ (nbFirst A4 M4 3).map NBHyp.seq ∧
    ¬ seqAvoid A4 [1] ∧
    (1 : ℕ) = A4.dummyIndex := by decide

/-- C6 (amended): for every `1 ≤ beam_size ≤ n - 2`, the masked padding
and start symbols are never among the selected candidates of any masked
`topk`, and no predicted lemma of either execution mode contains them.
Beyond that regime the guarantee fails all the way to the output: with
`beam_size = 3` over the four-symbol alphabet the dummy symbol is
selected (see the counterexample), its score is `log(-1) = NaN`, the
`NaN` row wins the fallback `topk(1)` at `max_length = 1`, and the
predicted lemma is `[1]` — it contains the padding symbol. -/
theorem C6_masking {σ : Type} [Inhabited σ] (A : Alph) (M : DecModel σ)
    (Ms : ℕ → DecModel σ) (lp : List ℚ) (N B maxLen : ℕ)
    (hwf : StepWF A M) (hwfs : ∀ u, StepWF A (Ms u)) (haw : AlphWF A)
    (hB1 : 1 ≤ B) (hBn : B + 2 ≤ A.n) (hlen : lp.length = A.n) :
    (∀ c ∈ topk (maskLP A lp) B,
      c.2 ≠ ⊥ ∧ c.1 ≠ A.dummyIndex ∧ c.1 ≠ A.startIndex) ∧
    seqAvoid A (nbPredictToken A M B maxLen) ∧
    (∀ sq ∈ bLemmas A Ms N B maxLen, seqAvoid A sq) ∧
    bLemmasT A4 (fun _ => M4) 1 3 1 = [[1]] ∧
    (1 : ℕ) = A4.dummyIndex ∧
    ¬ seqAvoid A4 [1] :=
  ⟨fun _ hc => topk_mask_sel A hlen hBn haw hc,
    nbPredictToken_avoid A M B maxLen hwf haw hBn,
    bLemmas_avoid A Ms N B maxLen hwfs haw hB1 hBn,
    by decide, by decide, by decide⟩

theorem C6_witness :
    seqAvoid A5 (nbPredictToken A5 Mend 2 2) :=
  (C6_masking A5 Mend (fun _ => Mend) [-3, -5, -5, -1, -2] 1 2 2
    (fun _ _ => rfl) (fun _ _ _ => rfl) (by decide) (by decide) (by decide)
    rfl).2.1

/-- C10: at the very first decoding step neither mode checks for the end
symbol: every selected first character — the end symbol included —
becomes a one-character live hypothesis, no candidate is finalized, and
for the concrete model `Mend` (which ranks `<E>` highest) the predicted
lemma of both modes is `[3]`, the end symbol itself. -/
theorem C10_first_step_no_end_check {σ : Type} [Inhabited σ] (A : Alph)
    (M : DecModel σ) (Ms : ℕ → DecModel σ) (N B t : ℕ) (d c : ℕ × Score)
    (ht : t < N)
    (hd : d ∈ topk (maskLP A (M.step M.init A.startIndex).2) B)
    (hc : c ∈ topk (maskLP A ((Ms t).step (Ms t).init A.startIndex).2) B) :
    (⟨[d.1], (M.step M.init A.startIndex).1, d.2⟩ : NBHyp σ) ∈ nbFirst A M B ∧
    [c.1] ∈ (bFirst A Ms N B).seqs ∧
    (bFirst A Ms N B).finals.getD t [] = [] ∧
    nbPredictToken A5 Mend 1 2 = [3] ∧
    bLemmas A5 (fun _ => Mend) 1 1 2 = [[3]] ∧
    A5.endIndex = 3 := by
  refine ⟨?_, bFirst_seqs_intro A Ms N B ht hc, bFirst_finals_getD A Ms N B t,
    by decide, by decide, rfl⟩
  show (⟨[d.1], (M.step M.init A.startIndex).1, d.2⟩ : NBHyp σ) ∈
    (topk (maskLP A (M.step M.init A.startIndex).2) B).map
      (fun c0 => ⟨[c0.1], (M.step M.init A.startIndex).1, c0.2⟩)
  exact List.mem_map_of_mem _ hd

theorem C10_witness :
    (⟨[3], (), ((-1 : ℚ) : Score)⟩ : NBHyp Unit) ∈ nbFirst A5 Mend 1 ∧
    [3] ∈ (bFirst A5 (fun _ => Mend) 1 1).seqs ∧
    (bFirst A5 (fun _ => Mend) 1 1).finals.getD 0 [] = [] ∧
    nbPredictToken A5 Mend 1 2 = [3] ∧
    bLemmas A5 (fun _ => Mend) 1 1 2 = [[3]] ∧
    A5.endIndex = 3 :=
  C10_first_step_no_end_check A5 Mend (fun _ => Mend) 1 1 0
    (3, ((-1 : ℚ) : Score)) (3, ((-1 : ℚ) : Score)) (by decide) (by decide)
    (by decide)

/-- C3: in both modes, a word whose finalized set is empty after the
decoding loop receives one synthesized finalized hypothesis taken from
its best remaining live hypothesis (the head of the descending sort in
the non-batched mode, the `topk(1)` row in the batched mode) with score
divided by `max_length`; and with `max_length = 1` — when the loop body
never runs and nothing is ever finalized — every predicted lemma is
still non-empty. -/
theorem C3_fallback_nonempty {σ : Type} [Inhabited σ] (A : Alph) (M : DecModel σ)
    (Ms : ℕ → DecModel σ) (N B maxLen t : ℕ)
    (hwf : StepWF A M) (hwfs : ∀ u, StepWF A (Ms u))
    (hB1 : 1 ≤ B) (hBn : B ≤ A.n) (hn : 1 ≤ A.n) (_ht : t < N) :
    ((nbLoop A M B (maxLen - 1) (nbFirst A M B) []).2 = [] →
      nbFinalsWithFallback maxLen (nbLoop A M B (maxLen - 1) (nbFirst A M B) []) =
        [(((nbLoop A M B (maxLen - 1) (nbFirst A M B) []).1.headD default).seq,
          Score.divNat
            ((nbLoop A M B (maxLen - 1) (nbFirst A M B) []).1.headD default).score
            maxLen)]) ∧
    (∀ g ∈ (nbLoop A M B (maxLen - 1) (nbFirst A M B) []).1,
      g.score ≤
        ((nbLoop A M B (maxLen - 1) (nbFirst A M B) []).1.headD default).score) ∧
    ((bLoop A Ms N B (maxLen - 1) (bFirst A Ms N B)).finals.getD t [] = [] →
      bFinalsWithFallback B maxLen
          (bLoop A Ms N B (maxLen - 1) (bFirst A Ms N B)) t =
        [((bLoop A Ms N B (maxLen - 1) (bFirst A Ms N B)).seqs.getD
            (t * B +
              (bFallbackTop1 B (bLoop A Ms N B (maxLen - 1) (bFirst A Ms N B)) t).1)
            [],
          Score.divNat
            (bFallbackTop1 B (bLoop A Ms N B (maxLen - 1) (bFirst A Ms N B)) t).2
            maxLen)]) ∧
    (∀ i < B,
      (bLoop A Ms N B (maxLen - 1) (bFirst A Ms N B)).scores.getD (t * B + i) ⊥ ≤
        (bFallbackTop1 B (bLoop A Ms N B (maxLen - 1) (bFirst A Ms N B)) t).2) ∧
    nbPredictToken A M B 1 ≠ [] ∧
    (∀ sq ∈ bLemmas A Ms N B 1, sq ≠ []) := by
  refine ⟨fun hf => nbFinalsWithFallback_empty maxLen _ hf, ?_,
    fun hf => bFinalsWithFallback_of_empty B maxLen _ t hf,
    fun i hi => bFallbackTop1_max B _ t hi,
    nbPredictToken_maxlen_one_ne_nil A M B hwf hB1 hn,
    bLemmas_maxlen_one_ne_nil A Ms N B hwfs hB1 hBn⟩
  intro g hg
  exact sorted_headD_max (nbLoop_sorted A M B _ _ _ (nbFirst_sorted A M B)) hg default

theorem C3_witness :
    nbPredictToken A5 Ma 2 1 ≠ [] :=
  (C3_fallback_nonempty A5 Ma (fun _ => Ma) 1 2 1 0 (fun _ _ => rfl)
    (fun _ _ _ => rfl) (by decide) (by decide) (by decide)
    (by decide)).2.2.2.2.1

/-- C1 counterexample (batched mode, `beam_size = 3 > n - 2`): after
the first expansion step of the `A4`/`M4` instance, the end-symbol
candidates of all three rows have been finalized (the finalized
sequences are `[[3], [0], [1]]`) — yet the end-symbol candidate of the
`NaN`-scored third row participates in further expansion: its `-inf`
zap is absorbed by the `NaN` parent score (`NaN + -inf = NaN`),
`torch.topk` ranks `NaN` first, and the new live sequences are
`[[3, 1], [0, 1], [1, 3]]`, where `[1, 3]` extends the finalized parent
`[1]` with the end symbol `3`. -/
theorem C1_counterexample :
    ((bStepT A4 (fun _ => M4) 1 3 (bFirstT A4 (fun _ => M4) 1 3)).finals.getD 0
      []).map Prod.fst = [[3], [0], [1]] ∧
    ([1], (⊤ : TScore)) ∈
      (bStepT A4 (fun _ => M4) 1 3 (bFirstT A4 (fun _ => M4) 1 3)).finals.getD 0 [] ∧
    (bStepT A4 (fun _ => M4) 1 3 (bFirstT A4 (fun _ => M4) 1 3)).seqs =
      [[3, 1], [0, 1], [1, 3]] ∧
    (3 : ℕ) = A4.endIndex := by
  refine ⟨by decide, by decide, ?_, rfl⟩
  show ((((List.range 1).map (fun t =>
      (bPicksT A4 (fun _ => M4) 3 (bFirstT A4 (fun _ => M4) 1 3) t).map
        (fun p => (t * 3 + p.1 / 3, p.1 % 3, p.2)))).flatten).map
      (fun q : ℕ × ℕ × TScore =>
        (bFirstT A4 (fun _ => M4) 1 3).seqs.getD q.1 [] ++
          [((bRowT A4 (fun _ => M4) 3 (bFirstT A4 (fun _ => M4) 1 3) q.1).2.getD
            q.2.1 (0, ⊤)).1])) = [[3, 1], [0, 1], [1, 3]]
  simp only [show List.range 1 = [0] from rfl, List.map_cons, List.map_nil,
    List.flatten_cons, List.flatten_nil, List.append_nil, bPicksT_path_eval]
  decide

/-- C1 (amended): in the non-batched mode the claim holds as stated: a
candidate whose chosen character is the end symbol is finalized with
score `(parent + candidate log-prob) / (len(seq) + 1)`, and only
candidates with a different character are appended to the live list.
In the batched mode (embedded over `torch` scores, `NaN` included) the
same finalization with the same score happens, and — provided
`2 ≤ beam_size ≤ n - 2`, so that no masked symbol is ever selected and
no `NaN` ever enters the state — every re-selected live sequence of a
reachable loop state extends its parent with a non-end character, so
finalized candidates do not participate in further expansion. -/
theorem C1_end_finalization {σ : Type} [Inhabited σ] (A : Alph) (M : DecModel σ)
    (Ms : ℕ → DecModel σ) (N B k : ℕ) (st : TBState σ) (live : List (NBHyp σ))
    (h : NBHyp σ) (w : Score) (v : TScore) (t i : ℕ)
    (hwf : ∀ u, StepWF A (Ms u)) (haw : AlphWF A) (h2B : 2 ≤ B)
    (hBn : B + 2 ≤ A.n) (ht : t < N) (hi : i < B)
    (hst : st = bLoopT A Ms N B k (bFirstT A Ms N B))
    (hh : h ∈ live) (hw : (A.endIndex, w) ∈ (nbRowTop A M B h).2)
    (hv : (A.endIndex, v) ∈ (bRowT A Ms B st (t * B + i)).2) :
    (h.seq, Score.divNat (h.score + w) (h.seq.length + 1))
      ∈ (nbStepOnce A M B live).2 ∧
    (∀ g ∈ (nbStepOnce A M B live).1, ∃ h0 ∈ live,
      ∃ c ∈ (nbRowTop A M B h0).2, c.1 ≠ A.endIndex ∧ g.seq = h0.seq ++ [c.1]) ∧
    (st.seqs.getD (t * B + i) [],
      TScore.divNat (st.scores.getD (t * B + i) ((⊥ : Score) : TScore) + v)
        ((st.seqs.getD (t * B + i) []).length + 1))
      ∈ (bStepT A Ms N B st).finals.getD t [] ∧
    (∀ sq ∈ (bStepT A Ms N B st).seqs, ∃ t0 < N, ∃ p ∈ bPicksT A Ms B st t0,
      ((bRowT A Ms B st (t0 * B + p.1 / B)).2.getD (p.1 % B) (0, ⊤)).1 ≠ A.endIndex ∧
      sq = st.seqs.getD (t0 * B + p.1 / B) [] ++
        [((bRowT A Ms B st (t0 * B + p.1 / B)).2.getD (p.1 % B) (0, ⊤)).1]) := by
  have hinv : TBInv A Ms N B st := by
    rw [hst]
    exact bInvT_bLoop A Ms N B hwf haw h2B hBn k _
      (bInvT_bFirst A Ms N B hwf haw hBn)
  refine ⟨nbStepOnce_final_mem A M B hh hw, ?_, ?_, ?_⟩
  · intro g hg
    obtain ⟨h0, hh0, c, hc, hne, rfl⟩ := nbStepOnce_live_mem A M B hg
    exact ⟨h0, hh0, c, hc, hne, rfl⟩
  · rw [bStepT_finals_getD A Ms N B st ht]
    exact List.mem_append_right _ (bFinalsAddT_mem A Ms B st hi hv)
  · intro sq hsq
    obtain ⟨t0, ht0, p, hp, rfl⟩ := bStepT_seqs_mem A Ms N B st hsq
    have hspec := bPicksT_spec A Ms N B st t0 hwf haw h2B hBn hinv.num_scores
      hinv.len_scores ht0 hp
    exact ⟨t0, ht0, p, hp, hspec.2.1, rfl⟩

theorem C1_witness :
    (([4] : List ℕ),
      Score.divNat (((-2 : ℚ) : Score) + ((-1 : ℚ) : Score)) 2)
      ∈ (nbStepOnce A5 Mend 2 [⟨[4], (), ((-2 : ℚ) : Score)⟩]).2 :=
  (C1_end_finalization A5 Mend (fun _ => Mend) 1 2 0
    (bLoopT A5 (fun _ => Mend) 1 2 0 (bFirstT A5 (fun _ => Mend) 1 2))
    [⟨[4], (), ((-2 : ℚ) : Score)⟩] ⟨[4], (), ((-2 : ℚ) : Score)⟩
    ((-1 : ℚ) : Score) (((-1 : ℚ) : Score) : TScore) 0 0 (fun _ _ _ => rfl)
    (by decide) (by decide) (by decide) (by decide) (by decide) rfl
    (List.mem_singleton.mpr rfl) (by decide) (by decide)).1

/-- C2 counterexample (batched mode, `beam_size = 3 > n - 2`): the
per-token re-ranking of the `A4`/`M4` instance after the first pass
selects the three `NaN`-scored candidates, flat indices `2`, `5` and
`6` (`torch.topk` ranks `NaN` above every number) — not the candidates
with highest cumulative log-probability.  Flat index `6` is the
end-symbol continuation of the `NaN` parent row (`6 / 3 = 2`, slot
`6 % 3 = 0`), finalized in this very step (finalized sequences
`[[3], [0], [1]]`): its `-inf` zap is absorbed by the `NaN` parent
score, so an end-symbol (finalized) candidate re-enters the
selection. -/
theorem C2_counterexample :
    (bPicksT A4 (fun _ => M4) 3 (bFirstT A4 (fun _ => M4) 1 3) 0).map Prod.fst =
      [2, 5, 6] ∧
    (bPicksT A4 (fun _ => M4) 3 (bFirstT A4 (fun _ => M4) 1 3) 0).map Prod.snd =
      [⊤, ⊤, ⊤] ∧
    ((bRowT A4 (fun _ => M4) 3 (bFirstT A4 (fun _ => M4) 1 3) 2).2.getD 0
      (0, ⊤)).1 = A4.endIndex ∧
    (bFinalsAddT A4 (fun _ => M4) 3 (bFirstT A4 (fun _ => M4) 1 3) 0).map
      Prod.fst = [[3], [0], [1]] := by
  refine ⟨?_, ?_, by decide, by decide⟩ <;> rw [bPicksT_path_eval] <;> decide

/-- C2 (amended): the cut to the next live beam is a stable descending
sort by cumulative score followed by `take beam_size`, in both modes.
The non-batched mode removes end-symbol candidates from the pool before
re-ranking; the batched mode only assigns them `-inf`, which excludes
them from the selection provided `2 ≤ beam_size ≤ n - 2` — the regime
in which every state score is an ordinary number and every token has at
least `beam_size` candidates that are neither zapped nor `NaN`, so each
selected candidate is finite, is not an end-symbol continuation, and
carries the unnormalized cumulative log-probability
`parent + candidate`. -/
theorem C2_topB_rerank {σ : Type} [Inhabited σ] (A : Alph) (M : DecModel σ)
    (Ms : ℕ → DecModel σ) (N B k : ℕ) (st : TBState σ) (live : List (NBHyp σ))
    (t : ℕ)
    (hwf : ∀ u, StepWF A (Ms u)) (haw : AlphWF A) (h2B : 2 ≤ B)
    (hBn : B + 2 ≤ A.n) (ht : t < N)
    (hst : st = bLoopT A Ms N B k (bFirstT A Ms N B)) :
    (topCut B (nbStepOnce A M B live).1).Sorted (descBy NBHyp.score) ∧
    (∀ a ∈ topCut B (nbStepOnce A M B live).1, a ∈ (nbStepOnce A M B live).1) ∧
    (topCut B (nbStepOnce A M B live).1).length =
      min B (nbStepOnce A M B live).1.length ∧
    (∀ a ∈ topCut B (nbStepOnce A M B live).1,
      ∀ b ∈ ((nbStepOnce A M B live).1.insertionSort (descBy NBHyp.score)).drop B,
      b.score ≤ a.score) ∧
    (bPicksT A Ms B st t).length = B ∧
    (bPicksT A Ms B st t).Sorted (descBy Prod.snd) ∧
    (∀ p ∈ bPicksT A Ms B st t,
      ∀ q ∈ ((bCandsT A Ms B st t).enum.insertionSort (descBy Prod.snd)).drop B,
      q.2 ≤ p.2) ∧
    (∀ p ∈ bPicksT A Ms B st t,
      TScore.IsNum p.2 ∧
      ((bRowT A Ms B st (t * B + p.1 / B)).2.getD (p.1 % B) (0, ⊤)).1
        ≠ A.endIndex ∧
      p.2 = st.scores.getD (t * B + p.1 / B) ((⊥ : Score) : TScore) +
        ((bRowT A Ms B st (t * B + p.1 / B)).2.getD (p.1 % B) (0, ⊤)).2) := by
  have hinv : TBInv A Ms N B st := by
    rw [hst]
    exact bInvT_bLoop A Ms N B hwf haw h2B hBn k _
      (bInvT_bFirst A Ms N B hwf haw hBn)
  refine ⟨topCut_sorted B _, fun a ha => topCut_subset ha, topCut_length B _,
    fun a ha b hb => topCut_dominates ha hb,
    bPicksT_length A Ms B st t hwf (by omega), topk_sorted _ _,
    fun p hp q hq => topk_dominates hp hq, fun p hp => ?_⟩
  exact bPicksT_spec A Ms N B st t hwf haw h2B hBn hinv.num_scores
    hinv.len_scores ht hp

theorem C2_witness :
    (bPicksT A5 (fun _ => Mend) 2
      (bLoopT A5 (fun _ => Mend) 1 2 0 (bFirstT A5 (fun _ => Mend) 1 2))
      0).length = 2 :=
  (C2_topB_rerank A5 Mend (fun _ => Mend) 1 2 0
    (bLoopT A5 (fun _ => Mend) 1 2 0 (bFirstT A5 (fun _ => Mend) 1 2))
    ([] : List (NBHyp Unit)) 0 (fun _ _ _ => rfl) (by decide) (by decide)
    (by decide) (by decide) rfl).2.2.2.2.1

/-- `w2ciRow_getElem?` with the two abbreviations written out. -/
theorem w2ciRow_getElem2 (A : Alph) (chars : Char → ℕ) {e s p : Bool} {L : ℕ}
    {tok : String} (hL : tok.length + numSpecial e s ≤ L) (j : ℕ) :
    (w2ciRow A chars e s p L tok)[j]? =
      (if (if s = true then 1 else 0) +
            (if p = true then L - (tok.length + numSpecial e s) else 0) ≤ j ∧
          j < (if s = true then 1 else 0) +
            (if p = true then L - (tok.length + numSpecial e s) else 0) +
            tok.length then
        (tok.toList[j - ((if s = true then 1 else 0) +
          (if p = true then L - (tok.length + numSpecial e s) else 0))]?).map chars
      else if e = true ∧ j = tok.length + (if s = true then 1 else 0) +
          (if p = true then L - (tok.length + numSpecial e s) else 0) then
        some A.endIndex
      else if s = true ∧
          j = (if p = true then L - (tok.length + numSpecial e s) else 0) then
        some A.startIndex
      else if j < L then some A.dummyIndex
      else none) :=
  w2ciRow_getElem? A chars hL j

/-- C7: `words_to_char_indices` builds one row per token; the common row
length is `max(min_length, longest + #inserted symbols)`; within row
`i`, the text occupies the window starting at
`int(start_symbol) + shift` (where `shift = row length - (len(token) +
#inserted)` when padding in front and `0` otherwise), the start symbol
sits immediately before the text, the end symbol immediately after it,
and every other cell below the row length holds the padding (dummy)
index; and the concrete encoding of `["ab", "c"]` with start and end
symbols and back-padding yields the two rows `<S> a b <E>` and
`<S> c <E> <pad>`, with padding at the row end. -/
theorem C7_words_to_char_indices (A : Alph) (chars : Char → ℕ)
    (tokens : List String) (e s p : Bool) (q : Option ℕ) {i : ℕ}
    (hi : i < tokens.length) :
    (words_to_char_indices A chars tokens e s p q).length = tokens.length ∧
    (∀ row ∈ words_to_char_indices A chars tokens e s p q,
      row.length =
        max (q.getD 0)
          (((tokens.map String.length).foldr max 0) + numSpecial e s)) ∧
    (∀ j < (tokens.getD i "").length,
      ((words_to_char_indices A chars tokens e s p q).getD i [])[
        (if s = true then 1 else 0) +
        (if p = true then
          w2ciRowLen tokens e s q - ((tokens.getD i "").length + numSpecial e s)
        else 0) + j]? = ((tokens.getD i "").toList[j]?).map chars) ∧
    (s = true →
      ((words_to_char_indices A chars tokens e s p q).getD i [])[
        if p = true then
          w2ciRowLen tokens e s q - ((tokens.getD i "").length + numSpecial e s)
        else 0]? = some A.startIndex) ∧
    (e = true →
      ((words_to_char_indices A chars tokens e s p q).getD i [])[
        (tokens.getD i "").length + (if s = true then 1 else 0) +
        (if p = true then
          w2ciRowLen tokens e s q - ((tokens.getD i "").length + numSpecial e s)
        else 0)]? = some A.endIndex) ∧
    (∀ j, (j < (if p = true then
          w2ciRowLen tokens e s q - ((tokens.getD i "").length + numSpecial e s)
        else 0) ∨
        ((tokens.getD i "").length + numSpecial e s +
          (if p = true then
            w2ciRowLen tokens e s q -
              ((tokens.getD i "").length + numSpecial e s)
          else 0) ≤ j ∧ j < w2ciRowLen tokens e s q)) →
      ((words_to_char_indices A chars tokens e s p q).getD i [])[j]? =
        some A.dummyIndex) ∧
    words_to_char_indices A chars ["ab", "c"] true true false none =
      [[A.startIndex, chars 'a', chars 'b', A.endIndex],
       [A.startIndex, chars 'c', A.endIndex, A.dummyIndex]] := by
  have htokmem : tokens.getD i "" ∈ tokens := getD_mem_of_lt hi ""
  have hL : (tokens.getD i "").length + numSpecial e s ≤ w2ciRowLen tokens e s q :=
    w2ciRowLen_ge tokens e s q htokmem
  have hsc : (if s = true then 1 else 0) ≤ numSpecial e s := by
    simp only [numSpecial]
    split_ifs <;> omega
  have hshift_le : (if p = true then
      w2ciRowLen tokens e s q - ((tokens.getD i "").length + numSpecial e s)
    else 0) ≤ w2ciRowLen tokens e s q := by
    split_ifs <;> omega
  have hrow : (words_to_char_indices A chars tokens e s p q).getD i [] =
      w2ciRow A chars e s p (w2ciRowLen tokens e s q) (tokens.getD i "") := by
    rw [words_to_char_indices]
    exact getD_map_of_lt _ hi [] ""
  refine ⟨?_, ?_, ?_, ?_, ?_, ?_, rfl⟩
  · rw [words_to_char_indices, List.length_map]
  · intro row hr
    rw [words_to_char_indices] at hr
    obtain ⟨tok, _, rfl⟩ := List.mem_map.mp hr
    rw [w2ciRow_length]
    exact w2ciRowLen_eq tokens e s q
  · intro j hj
    rw [hrow, w2ciRow_getElem2 A chars hL]
    set n0 := (tokens.getD i "").length with hn0
    set S := if s = true then 1 else 0 with hS
    set W := if p = true then
      w2ciRowLen tokens e s q - (n0 + numSpecial e s) else 0 with hW
    rw [if_pos (show S + W ≤ S + W + j ∧ S + W + j < S + W + n0 from
      ⟨by omega, by omega⟩), Nat.add_sub_cancel_left]
  · intro hs
    have hsI : (if s = true then 1 else 0) = 1 := if_pos hs
    rw [hrow, w2ciRow_getElem2 A chars hL, hsI]
    set n0 := (tokens.getD i "").length with hn0
    set W := if p = true then
      w2ciRowLen tokens e s q - (n0 + numSpecial e s) else 0 with hW
    rw [if_neg (show ¬ (1 + W ≤ W ∧ W < 1 + W + n0) by omega),
      if_neg (show ¬ (e = true ∧ W = n0 + 1 + W) from
        fun hcon => absurd hcon.2 (by omega)),
      if_pos ⟨hs, rfl⟩]
  · intro he
    rw [hrow, w2ciRow_getElem2 A chars hL]
    set n0 := (tokens.getD i "").length with hn0
    set S := if s = true then 1 else 0 with hS
    set W := if p = true then
      w2ciRowLen tokens e s q - (n0 + numSpecial e s) else 0 with hW
    rw [if_neg (show ¬ (S + W ≤ n0 + S + W ∧ n0 + S + W < S + W + n0) by omega),
      if_pos ⟨he, rfl⟩]
  · intro j hj
    rw [hrow, w2ciRow_getElem2 A chars hL]
    set n0 := (tokens.getD i "").length with hn0
    set L0 := w2ciRowLen tokens e s q with hL0
    set S := if s = true then 1 else 0 with hS
    set W := if p = true then L0 - (n0 + numSpecial e s) else 0 with hW
    rw [if_neg (show ¬ (S + W ≤ j ∧ j < S + W + n0) by omega),
      if_neg (show ¬ (e = true ∧ j = n0 + S + W) from fun hcon => by
        obtain ⟨he2, hj2⟩ := hcon
        have hnum : numSpecial e s = 1 + S := by
          rw [numSpecial, if_pos he2, ← hS]
        omega),
      if_neg (show ¬ (s = true ∧ j = W) from fun hcon => by
        obtain ⟨hs2, hj2⟩ := hcon
        have hS1 : S = 1 := by rw [hS, if_pos hs2]
        omega),
      if_pos (show j < L0 by omega)]

theorem C7_witness :
    (words_to_char_indices A5 (fun _ => 4) ["ab", "c"] true true false
      none).length = 2 :=
  (C7_words_to_char_indices A5 (fun _ => 4) ["ab", "c"] true true false none
    (i := 0) (by decide)).1
